import Mathlib

namespace Ezer

/-!
Verification development for the ezer memory store and puzzle
dependency-graph engine.  The TypeScript sources (src/lib/memory.ts and
src/cli.ts) are shallowly embedded: strings are lists of characters,
the entry directory is an association list of (file name, file contents),
and each store operation is a pure function threading that state.  The
external YAML codec (confbox) is modelled by an executable
serializer/parser for exactly the subset of YAML documents the store
emits: a flat mapping of plain scalars plus one block list.
-/
/-- Strings are modelled as lists of characters. -/
abbrev Str := List Char

/-- Coerce a Lean string literal into the character-list model. -/
def str (s : String) : Str := s.data

/-- JavaScript whitespace characters relevant to `String.prototype.trim`. -/
def isWS (c : Char) : Bool :=
  c = ' ' || c = '\n' || c = '\t' || c = '\r'

/-- Model of JavaScript `String.prototype.trim`: drop leading and trailing
whitespace. -/
def trimChars (s : Str) : Str :=
  ((s.dropWhile isWS).reverse.dropWhile isWS).reverse

/-- Split a character list at every occurrence of the separator, mirroring
`String.prototype.split` with a single-character separator.  The result is
always non-empty. -/
def splitSep (sep : Char) : Str → List Str
  | [] => [[]]
  | c :: cs =>
    match splitSep sep cs with
    | [] => [[]]
    | y :: ys => if c = sep then [] :: y :: ys else (c :: y) :: ys

/-- Join a list of pieces with a separator character, the inverse of
`splitSep`. -/
def joinSep (sep : Char) : List Str → Str
  | [] => []
  | [x] => x
  | x :: y :: ys => x ++ sep :: joinSep sep (y :: ys)

/-! ### Character classes and the identifier pattern -/
def isLowerAZ (c : Char) : Bool := 'a' ≤ c && c ≤ 'z'

def isDigit09 (c : Char) : Bool := '0' ≤ c && c ≤ '9'

def isUpperAZ (c : Char) : Bool := 'A' ≤ c && c ≤ 'Z'

def isAlnum (c : Char) : Bool := isLowerAZ c || isDigit09 c || isUpperAZ c

def isB32 (c : Char) : Bool := isLowerAZ c || ('2' ≤ c && c ≤ '7')

/-- `ID_PATTERN = /^[a-z0-9]{2,}-[a-z2-7]{5}$/` from src/lib/memory.ts.
The character class `[a-z0-9]` cannot match `-`, so the regex is equivalent
to: a maximal run of lowercase letters/digits of length at least 2, a
literal dash, then exactly five base32 characters ending the string. -/
def idPattern (s : Str) : Bool :=
  let pre := s.takeWhile (fun c => isLowerAZ c || isDigit09 c)
  let rest := s.dropWhile (fun c => isLowerAZ c || isDigit09 c)
  decide (2 ≤ pre.length) &&
    match rest with
    | '-' :: suf => decide (suf.length = 5) && suf.all isB32
    | _ => false

/-! ### Data model

`YamlVal` models the dynamically-typed values the YAML front matter can
hold at the keys the store reads.  The raw-text subset parser below only
ever produces `vstr`, `vlist` of `vstr`, and `vnull`; `vnum` and nested
lists exist so that the JS-level dynamic type checks of `normalizeBlocks`
can be stated over mistyped header values as well. -/
inductive YamlVal where
  | vstr : Str → YamlVal
  | vlist : List YamlVal → YamlVal
  | vnull : YamlVal
  | vnum : Int → YamlVal

structure FrontMatter where
  type : Option YamlVal := none
  created : Option YamlVal := none
  title : Option YamlVal := none
  status : Option YamlVal := none
  closedAt : Option YamlVal := none
  blocks : Option YamlVal := none

/-- The in-memory record (interface `MemoryEntry` in src/lib/memory.ts,
current version: `blocks` is a list of ids).  `type` is kept as a plain
string as in JS; optional fields model `undefined` by `none`. -/
structure MemoryEntry where
  id : Str
  type : Str
  content : Str
  created : Str
  closedAt : Option Str := none
  title : Option Str := none
  status : Option Str := none
  blocks : Option (List Str) := none
deriving DecidableEq, Repr

/-- Error kinds of the store, one per distinct `throw` site / taxonomy
entry of the spec.  JS throws `Error(message)`; we keep the kind and the
offending id. -/
inductive Err where
  | notFound : Str → Err
  | wrongType : Str → Err
  | malformed : Str → Err
  | yamlSyntax : Err
  | hardLimit : Err
deriving DecidableEq, Repr

/-! ### Entry codec -/
def asVstr : YamlVal → Option Str
  | .vstr s => some s
  | _ => none

def asStr : Option YamlVal → Option Str
  | some (.vstr s) => some s
  | _ => none

/-- `normalizeBlocks` from src/lib/memory.ts: an array keeps its string
elements that trim to a non-empty `ID_PATTERN` match; a lone string is
kept when it passes the same test; anything else yields `undefined`.
There is no check against the entry's own id. -/
def normalizeBlocks : Option YamlVal → Option (List Str)
  | some (.vlist items) =>
    let ids := ((items.filterMap asVstr).map trimChars).filter
      (fun id => decide (0 < id.length) && idPattern id)
    if ids.isEmpty then none else some ids
  | some (.vstr s) =>
    let id := trimChars s
    if decide (0 < id.length) && idPattern id then some [id] else none
  | _ => none

/-- Field extraction of `parseMemoryFile` after the front matter has been
parsed: `type`/`created` are copied (with `created ?? ""`), `title` and
`closedAt` are kept when present as strings, `status` only when it is
exactly `open` or `closed`, and `blocks` goes through `normalizeBlocks`.
(The JS code would copy even non-string `type`/`created`/`title` values
verbatim; the model restricts those headers to strings, which is all the
serializer and the raw subset parser can produce.) -/
def buildEntry (id : Str) (fm : FrontMatter) (body : Str) : MemoryEntry :=
  { id := id
    type := (asStr fm.type).getD []
    content := body
    created := (asStr fm.created).getD []
    title := asStr fm.title
    status := match asStr fm.status with
      | some s => if s = str "open" || s = str "closed" then some s else none
      | none => none
    closedAt := asStr fm.closedAt
    blocks := normalizeBlocks fm.blocks }

/-- Serialized YAML front matter, modelling `stringifyYAML` of confbox on
the flat records the store emits (insertion order `type`, `created`,
`title`, `status`, `closedAt`, `blocks`; a non-empty list is rendered as a
block sequence with two-space indent).  The truthiness guards of
`serializeMemoryEntry` are kept: empty strings and empty lists are
omitted. -/
def titleSeg (e : MemoryEntry) : List Str :=
  match e.title with
  | some t => if t.isEmpty then [] else [str "title: " ++ t]
  | none => []

def statusSeg (e : MemoryEntry) : List Str :=
  match e.status with
  | some s => if s.isEmpty then [] else [str "status: " ++ s]
  | none => []

def closedSeg (e : MemoryEntry) : List Str :=
  match e.closedAt with
  | some c => if c.isEmpty then [] else [str "closedAt: " ++ c]
  | none => []

def blocksSeg (e : MemoryEntry) : List Str :=
  match e.blocks with
  | some l =>
    if l.isEmpty then [] else str "blocks:" :: l.map (fun b => str "  - " ++ b)
  | none => []

def yamlLines (e : MemoryEntry) : List Str :=
  (str "type: " ++ e.type) :: (str "created: " ++ e.created) ::
    (titleSeg e ++ (statusSeg e ++ (closedSeg e ++ blocksSeg e)))

/-- `serializeMemoryEntry`: `---\n${yaml}\n---\n${content}\n` where
`${yaml}` is the trim-ended YAML rendering of the front matter. -/
def serializeMemoryEntry (e : MemoryEntry) : Str :=
  str "---\n" ++ joinSep '\n' (yamlLines e) ++ str "\n---\n" ++ e.content ++ ['\n']

/-- Recognize a block-sequence item line `  - v`. -/
def itemValue : Str → Option Str
  | ' ' :: ' ' :: '-' :: ' ' :: v => some (trimChars v)
  | _ => none

def setField (fm : FrontMatter) (k : Str) (v : YamlVal) : FrontMatter :=
  if k = str "type" then { fm with type := some v }
  else if k = str "created" then { fm with created := some v }
  else if k = str "title" then { fm with title := some v }
  else if k = str "status" then { fm with status := some v }
  else if k = str "closedAt" then { fm with closedAt := some v }
  else if k = str "blocks" then { fm with blocks := some v }
  else fm

/-- Split a mapping line at the first colon. -/
def splitKeyAux : Str → Option (Str × Str)
  | [] => none
  | c :: cs =>
    if c = ':' then some ([], cs)
    else
      match splitKeyAux cs with
      | some (k, r) => some (c :: k, r)
      | none => none

/-- Line parser for the YAML subset the store writes, processed as a
bottom-up fold so that it is structurally recursive: blank lines are
skipped, `key: value` binds a plain scalar, `key:` followed by `  - item`
lines binds a block sequence (or null when no items follow), and a
sequence item with no owning key line — or following a scalar line or a
blank line — is a syntax error, modelling a `parseYAML` throw.  The
accumulator carries the run of item lines found directly below the
current position.  (On a duplicate key this model keeps the upper
occurrence; the real YAML parser rejects duplicate keys outright, and the
store never emits them.) -/
def parseYamlAux : List Str → Except Err (FrontMatter × List Str)
  | [] => .ok ({}, [])
  | l :: ls =>
    match parseYamlAux ls with
    | .error e => .error e
    | .ok (fm, pending) =>
      match itemValue l with
      | some v => .ok (fm, v :: pending)
      | none =>
        if l.isEmpty then
          if pending.isEmpty then .ok (fm, []) else .error .yamlSyntax
        else
          match splitKeyAux l with
          | none => .error .yamlSyntax
          | some (k, rest) =>
            match rest with
            | [] =>
              let v := if pending.isEmpty then YamlVal.vnull
                       else YamlVal.vlist (pending.map .vstr)
              .ok (setField fm k v, [])
            | ' ' :: v =>
              if pending.isEmpty then .ok (setField fm k (.vstr (trimChars v)), [])
              else .error .yamlSyntax
            | _ => .error .yamlSyntax

def parseYamlFM (text : Str) : Except Err FrontMatter :=
  match parseYamlAux (splitSep '\n' text) with
  | .error e => .error e
  | .ok (fm, pending) => if pending.isEmpty then .ok fm else .error .yamlSyntax

/-- Locate the closing `---` line: it must not be the last line of the
file (the regex requires `\n---\n`) and the search starts past the first
front-matter line (the lazy group `([\s\S]*?)` begins right after the
opening `---\n`, so a `---` on the very next line cannot close an empty
front matter). -/
def findDelimAux : List Str → Option (List Str × List Str)
  | [] => none
  | l :: ls =>
    if l = str "---" then (if ls.isEmpty then none else some ([], ls))
    else
      match findDelimAux ls with
      | some (fm, body) => some (l :: fm, body)
      | none => none

/-- The regex `/^---\n([\s\S]*?)\n---\n([\s\S]*)$/` of `parseMemoryFile`,
as a line-level computation. -/
def splitFrontMatter (raw : Str) : Option (Str × Str) :=
  match splitSep '\n' raw with
  | first :: x :: rest =>
    if first = str "---" then
      match findDelimAux rest with
      | some (fmTail, bodyLines) =>
        some (joinSep '\n' (x :: fmTail), joinSep '\n' bodyLines)
      | none => none
    else none
  | _ => none

/-- `parseMemoryFile` from src/lib/memory.ts (current version). -/
def parseMemoryFile (id : Str) (raw : Str) : Except Err MemoryEntry :=
  match splitFrontMatter raw with
  | none => .error (.malformed id)
  | some (fmText, body) =>
    match parseYamlFM fmText with
    | .error e => .error e
    | .ok fm => .ok (buildEntry id fm (trimChars body))

/-! ### Entry store over a directory state -/
/-- The memory directory: file name ↦ raw contents, in `readdir` order. -/
abbrev Fs := List (Str × Str)

def findFile (fs : Fs) (name : Str) : Option Str :=
  match fs with
  | [] => none
  | (n, c) :: rest => if n = name then some c else findFile rest name

def writeFile (fs : Fs) (name contents : Str) : Fs :=
  match fs with
  | [] => [(name, contents)]
  | (n, c) :: rest =>
    if n = name then (n, contents) :: rest else (n, c) :: writeFile rest name contents

def removeFile (fs : Fs) (name : Str) : Fs :=
  match fs with
  | [] => []
  | (n, c) :: rest => if n = name then rest else (n, c) :: removeFile rest name

/-- `unlink` throws on a missing path. -/
def unlink (fs : Fs) (name : Str) : Except Err Fs :=
  if (findFile fs name).isSome then .ok (removeFile fs name)
  else .error (.notFound name)

/-- `file.endsWith(".md")` plus `file.replace(/\.md$/, "")`. -/
def dropMd (name : Str) : Option Str :=
  match name.reverse with
  | 'd' :: 'm' :: '.' :: ridRev => some ridRev.reverse
  | _ => none

/-- The scan loop of `listMemoryEntries`: parse every `.md` file, keeping
the entries matching the type filter.  A parse failure aborts the whole
scan — in the source the `try` block wraps the entire loop. -/
def listGo (t : Option Str) : Fs → Except Err (List MemoryEntry)
  | [] => .ok []
  | (name, contents) :: rest =>
    match dropMd name with
    | none => listGo t rest
    | some id =>
      match parseMemoryFile id contents with
      | .error e => .error e
      | .ok entry =>
        match listGo t rest with
        | .error e => .error e
        | .ok l =>
          .ok (if (match t with | none => true | some ty => entry.type = ty)
               then entry :: l else l)

def lexLt : Str → Str → Bool
  | [], [] => false
  | [], _ :: _ => true
  | _ :: _, [] => false
  | a :: as, b :: bs => if a < b then true else if b < a then false else lexLt as bs

/-- Comparator of the listing sort, newest `created` first.  `toISOString`
timestamps have a fixed length and alphabet, so `new Date(x).getTime()`
comparisons coincide with lexicographic comparison of the strings, which
is how the model renders them. -/
def newerFirst (a b : MemoryEntry) : Bool := !lexLt a.created b.created

def insertSorted (le : α → α → Bool) (x : α) : List α → List α
  | [] => [x]
  | y :: ys => if le x y then x :: y :: ys else y :: insertSorted le x ys

def sortByLe (le : α → α → Bool) (l : List α) : List α :=
  l.foldr (insertSorted le) []

/-- `listMemoryEntries` (current version): a missing directory (`none`) or
any error in the scan yields `[]`; otherwise the scan result sorted by
`created` descending. -/
def listMemoryEntries (dir : Option Fs) (t : Option Str) : List MemoryEntry :=
  match dir with
  | none => []
  | some fs =>
    match listGo t fs with
    | .error _ => []
    | .ok l => sortByLe newerFirst l

/-- `Buffer.byteLength(text, "utf-8")`. -/
def getByteSize (s : Str) : Nat := (s.map Char.utf8Size).sum

def softLimit : Nat := 30000

def hardLimit : Nat := 32768

def getTotalNoteSize (fs : Fs) : Nat :=
  ((listMemoryEntries (some fs) (some (str "note"))).map
    (fun e => getByteSize e.content)).sum

/-- `createNote`: the id and the timestamp of the new entry are inputs of
the model (in the source they come from `generateId()` and `new Date()`).
The boolean records whether the soft-limit warning was printed. -/
def createNote (content newId now : Str) (fs : Fs) :
    Except Err (MemoryEntry × Bool) × Fs :=
  let newTotal := getTotalNoteSize fs + getByteSize content
  if hardLimit < newTotal then (.error .hardLimit, fs)
  else
    let entry : MemoryEntry :=
      { id := newId, type := str "note", content := content, created := now }
    (.ok (entry, decide (softLimit < newTotal)),
     writeFile fs (newId ++ str ".md") (serializeMemoryEntry entry))

/-- The validation loop of `replaceNotes`: read and parse each id in
order, and report the first id that is missing, malformed, or not a
note. -/
def validateNotes (fs : Fs) : List Str → Option Err
  | [] => none
  | id :: rest =>
    match findFile fs (id ++ str ".md") with
    | none => some (.notFound id)
    | some raw =>
      match parseMemoryFile id raw with
      | .error e => some e
      | .ok entry =>
        if entry.type = str "note" then validateNotes fs rest
        else some (.wrongType id)

/-- The deletion loop of `replaceNotes`: an `unlink` failure propagates,
leaving the earlier deletions in place. -/
def unlinkAll : List Str → Fs → Option Err × Fs
  | [], fs => (none, fs)
  | id :: rest, fs =>
    match unlink fs (id ++ str ".md") with
    | .error e => (some e, fs)
    | .ok fs2 => unlinkAll rest fs2

/-- `replaceNotes`: validate every id, then delete them all, then create
the consolidated note (in that order, as in the source). -/
def replaceNotes (ids : List Str) (content newId now : Str) (fs : Fs) :
    Except Err MemoryEntry × Fs :=
  match validateNotes fs ids with
  | some e => (.error e, fs)
  | none =>
    match unlinkAll ids fs with
    | (some e, fs2) => (.error e, fs2)
    | (none, fs2) =>
      match createNote content newId now fs2 with
      | (.error e, fs3) => (.error e, fs3)
      | (.ok (entry, _), fs3) => (.ok entry, fs3)

/-! ### The `puzzle list` classification from src/cli.ts -/
/-- SameValueZero key equality of a JS `Map`: a string key and an array
key never compare equal, and two array objects are identical only when
they are the same object.  An array key is tagged with the id of the
entry whose `blocks` field owns it — distinct parsed entries own distinct
array objects, and ids are unique in a listing. -/
inductive JsKey where
  | kstr : Str → JsKey
  | karr : Str → JsKey
deriving DecidableEq

abbrev BlockersMap := List (JsKey × List MemoryEntry)

def mapGet (m : BlockersMap) (k : JsKey) : Option (List MemoryEntry) :=
  match m with
  | [] => none
  | (k2, v) :: rest => if k2 = k then some v else mapGet rest k

def mapSet (m : BlockersMap) (k : JsKey) (v : List MemoryEntry) : BlockersMap :=
  match m with
  | [] => [(k, v)]
  | (k2, v2) :: rest =>
    if k2 = k then (k2, v) :: rest else (k2, v2) :: mapSet rest k v

def openPuzzles (entries : List MemoryEntry) : List MemoryEntry :=
  entries.filter (fun e => !(e.status == some (str "closed")))

/-- The `blockers` map construction of the `puzzle list` command: for each
open puzzle with a truthy `blocks` field, `blockers.set(puzzle.blocks,
[...list, puzzle])` — the *array itself* is the key. -/
def buildBlockers (entries : List MemoryEntry) : BlockersMap :=
  (openPuzzles entries).foldl
    (fun m p =>
      match p.blocks with
      | none => m
      | some _ =>
        let key := JsKey.karr p.id
        let list := (mapGet m key).getD []
        mapSet m key (list ++ [p]))
    []

/-- `getBlockingPuzzles(puzzleId)`: `blockers.get(puzzleId) ?? []` — a
lookup with a *string* key. -/
def getBlockingPuzzles (entries : List MemoryEntry) (pid : Str) : List MemoryEntry :=
  (mapGet (buildBlockers entries) (JsKey.kstr pid)).getD []

/-- `getStatus` from the `puzzle list` command (src/cli.ts). -/
def getStatus (entries : List MemoryEntry) (p : MemoryEntry) : Str :=
  if p.status == some (str "closed") then str "closed"
  else if (getBlockingPuzzles entries p.id).length > 0 then str "blocked"
  else str "ready"

/-! ### Puzzle tree walks (current version, `blocks` a list of ids)

The JS loops carry no cycle guard, so they are partial on cyclic stores.
A fuel argument makes them total here: `none` means the loop or recursion
has not finished within `fuel` steps, and a result that is `none` for
every fuel is a non-terminating run of the source. -/
def lookupEntry (entries : List MemoryEntry) (id : Str) : Option MemoryEntry :=
  match entries with
  | [] => none
  | e :: rest => if e.id = id then some e else lookupEntry rest id

/-- `getBlocksList`: `entry.blocks ?? []`. -/
def getBlocksList (e : MemoryEntry) : List Str := e.blocks.getD []

/-- The ancestor loop of `getPuzzleTree`: follow `blocks[0]` upward,
prepending each primary blocker (`ancestors.unshift`). -/
def ancGo (entries : List MemoryEntry) : Nat → Str → List Str → Option (List Str)
  | 0, _, _ => none
  | n+1, current, acc =>
    if current.isEmpty then some acc
    else
      match lookupEntry entries current with
      | none => some acc
      | some p =>
        if p.type = str "puzzle" then
          match (getBlocksList p).head? with
          | some nxt =>
            if nxt.isEmpty then some acc else ancGo entries n nxt (nxt :: acc)
          | none => some acc
        else some acc

/-- One level of `findDescendants` in `getPuzzleTree`: scan the id map in
order and, for each puzzle whose `blocks` contains `pid`, emit its id
followed by its own descendants. -/
def descGoStep (recur : Str → Option (List Str)) :
    List MemoryEntry → Str → Option (List Str)
  | [], _ => some []
  | e :: rest, pid =>
    if (getBlocksList e).contains pid then
      match recur e.id with
      | none => none
      | some sub =>
        match descGoStep recur rest pid with
        | none => none
        | some tl => some (e.id :: (sub ++ tl))
    else descGoStep recur rest pid

def descGo (entries : List MemoryEntry) : Nat → Str → Option (List Str)
  | 0, _ => none
  | n+1, pid => descGoStep (fun i => descGo entries n i) entries pid

/-- `getPuzzleTree` (current version): `[...ancestors, rootId,
...descendants]`. -/
def getPuzzleTree (entries : List MemoryEntry) (fuel : Nat) (root : Str) :
    Option (List Str) :=
  match ancGo entries fuel root [] with
  | none => none
  | some anc =>
    match descGo entries fuel root with
    | none => none
    | some desc => some (anc ++ root :: desc)

/-- The ancestor loop of `renderPuzzleTree`: same walk, but every visited
node (including the root) is recorded. -/
def rancGo (entries : List MemoryEntry) : Nat → Str → List Str → Option (List Str)
  | 0, _, _ => none
  | n+1, current, acc =>
    if current.isEmpty then some acc
    else
      match lookupEntry entries current with
      | none => some acc
      | some p =>
        if p.type = str "puzzle" then
          match (getBlocksList p).head? with
          | some nxt =>
            if nxt.isEmpty then some (current :: acc)
            else rancGo entries n nxt (current :: acc)
          | none => some (current :: acc)
        else some acc

/-- One level of `findDescendants` in `renderPuzzleTree` (depth-carrying
variant). -/
def rdescGoStep (recur : Str → Nat → Option (List (Str × Nat))) :
    List MemoryEntry → Str → Nat → Option (List (Str × Nat))
  | [], _, _ => some []
  | e :: rest, pid, depth =>
    if (getBlocksList e).contains pid then
      match recur e.id (depth + 1) with
      | none => none
      | some sub =>
        match rdescGoStep recur rest pid depth with
        | none => none
        | some tl => some ((e.id, depth) :: (sub ++ tl))
    else rdescGoStep recur rest pid depth

def rdescGo (entries : List MemoryEntry) : Nat → Str → Nat → Option (List (Str × Nat))
  | 0, _, _ => none
  | n+1, pid, depth => rdescGoStep (fun i d => rdescGo entries n i d) entries pid depth

/-! ### The earlier `getPuzzleTree` (`blocks` a single optional id) -/
structure MemoryEntryOld where
  id : Str
  type : Str
  content : Str
  created : Str
  closedAt : Option Str := none
  title : Option Str := none
  status : Option Str := none
  blocks : Option Str := none
deriving DecidableEq, Repr

/-- Interpret a current entry whose `blocks` list has at most one element
as an entry of the earlier shape, the singleton list replaced by its sole
element. -/
def toOldEntry (e : MemoryEntry) : MemoryEntryOld :=
  { id := e.id, type := e.type, content := e.content, created := e.created
    closedAt := e.closedAt, title := e.title, status := e.status
    blocks := e.blocks.bind List.head? }

def lookupEntryOld (entries : List MemoryEntryOld) (id : Str) : Option MemoryEntryOld :=
  match entries with
  | [] => none
  | e :: rest => if e.id = id then some e else lookupEntryOld rest id

def oldAncGo (entries : List MemoryEntryOld) : Nat → Str → List Str → Option (List Str)
  | 0, _, _ => none
  | n+1, current, acc =>
    if current.isEmpty then some acc
    else
      match lookupEntryOld entries current with
      | none => some acc
      | some p =>
        if p.type = str "puzzle" then
          match p.blocks with
          | some nxt =>
            if nxt.isEmpty then some acc else oldAncGo entries n nxt (nxt :: acc)
          | none => some acc
        else some acc

def oldDescGoStep (recur : Str → Option (List Str)) :
    List MemoryEntryOld → Str → Option (List Str)
  | [], _ => some []
  | e :: rest, pid =>
    if e.blocks == some pid then
      match recur e.id with
      | none => none
      | some sub =>
        match oldDescGoStep recur rest pid with
        | none => none
        | some tl => some (e.id :: (sub ++ tl))
    else oldDescGoStep recur rest pid

def oldDescGo (entries : List MemoryEntryOld) : Nat → Str → Option (List Str)
  | 0, _ => none
  | n+1, pid => oldDescGoStep (fun i => oldDescGo entries n i) entries pid

def getPuzzleTreeOld (entries : List MemoryEntryOld) (fuel : Nat) (root : Str) :
    Option (List Str) :=
  match oldAncGo entries fuel root [] with
  | none => none
  | some anc =>
    match oldDescGo entries fuel root with
    | none => none
    | some desc => some (anc ++ root :: desc)

/-! ### Identifier generator -/
def splitSepP (p : Char → Bool) : Str → List Str
  | [] => [[]]
  | c :: cs =>
    match splitSepP p cs with
    | [] => [[]]
    | y :: ys => if p c then [] :: y :: ys else (c :: y) :: ys

/-- ASCII model of `String.prototype.toLowerCase`. -/
def toLowerAscii (c : Char) : Char :=
  if isUpperAZ c then Char.ofNat (c.toNat + 32) else c

/-- `derivePrefix` from src/lib/memory.ts: first character of each
`-`/`_`-separated segment; fall back to the first two characters of the
name when that gives fewer than two characters; lowercase the result. -/
def derivePfx (dirName : Str) : Str :=
  let segments := splitSepP (fun c => c = '-' || c = '_') dirName
  let pre := (segments.map (fun s => s.take 1)).flatten
  let pre2 := if pre.length < 2 then dirName.take 2 else pre
  pre2.map toLowerAscii

def base32Alphabet : Str := str "abcdefghijklmnopqrstuvwxyz234567"

/-- `generateRandomId(length)`, the random draws supplied as an oracle of
indices into the base32 alphabet. -/
def generateRandomId (k : Nat) (sample : Nat → Fin 32) : Str :=
  (List.range k).map (fun i => base32Alphabet.getD (sample i).val 'a')

/-- `generateId`: `${prefix}-${random}` with a five-character random
suffix. -/
def generateId (dirName : Str) (sample : Nat → Fin 32) : Str :=
  derivePfx dirName ++ '-' :: generateRandomId 5 sample

/-! ### Valid entries and the round-trip support lemmas -/
/-- Substring test for `": "`, which would end the key early. -/
def hasColonSpace : Str → Bool
  | ':' :: ' ' :: _ => true
  | _ :: rest => hasColonSpace rest
  | [] => false

/-- Scalars the YAML core schema would read back as booleans or null, so
the serializer would have quoted them. -/
def reservedScalar (s : Str) : Bool :=
  ([str "true", str "false", str "null", str "~", str "yes", str "no",
    str "on", str "off"]).contains s

/-- Scalars the YAML core schema might read back as numbers. -/
def numericLike (s : Str) : Bool :=
  s.all (fun c => isDigit09 c || c = '.' || c = '-' || c = '+' || c = 'e' || c = 'E')

/-- A header value that survives the YAML layer verbatim: non-empty, a
single line, no surrounding whitespace, starting with an alphanumeric
character, free of `": "`, and not a scalar the YAML core schema would
re-type.  `new Date().toISOString()` timestamps and ordinary titles
qualify. -/
def plainValue (s : Str) : Bool :=
  !s.isEmpty
  && isAlnum (s.headD ' ')
  && !isWS (s.getLastD ' ')
  && s.all (fun c => !(c = '\n' || c = '\r'))
  && !hasColonSpace s
  && !reservedScalar s
  && !numericLike s

def validType (s : Str) : Bool :=
  s == str "note" || s == str "puzzle" || s == str "feedback"

/-- A valid `MemoryEntry` per the data model: a known type, plain header
values, `status` one of `open`/`closed`, non-empty `blocks` of
well-formed ids when present, and `content` already free of surrounding
whitespace. -/
def validEntry (e : MemoryEntry) : Bool :=
  validType e.type
  && plainValue e.created
  && (match e.title with | some t => plainValue t | none => true)
  && (match e.status with
      | some s => s == str "open" || s == str "closed"
      | none => true)
  && (match e.closedAt with | some c => plainValue c | none => true)
  && (match e.blocks with
      | some l => !l.isEmpty && l.all idPattern
      | none => true)
  && trimChars e.content == e.content

/-- The full serialized file, line by line. -/
def allLines (e : MemoryEntry) : List Str :=
  str "---" :: (yamlLines e ++ str "---" :: (splitSep '\n' e.content ++ [[]]))

/-- The front matter the serializer encodes for an entry. -/
def fmOf (e : MemoryEntry) : FrontMatter :=
  { type := some (.vstr e.type), created := some (.vstr e.created)
    title := e.title.map .vstr, status := e.status.map .vstr
    closedAt := e.closedAt.map .vstr
    blocks := e.blocks.map (fun l => .vlist (l.map .vstr)) }

/-- A rank on the ids that strictly increases along every `blocks` edge
and stays at most `N` on everything an edge can reach. -/
def RankedBelow (entries : List MemoryEntry) (rank : Str → Nat) (N : Nat) : Prop :=
  ∀ e ∈ entries, ∀ b ∈ getBlocksList e, rank e.id < rank b ∧ rank b ≤ N

/-! ### `replaceNotes` validation -/
/-- `id` names a readable, decodable note file in `fs`. -/
def IsNote (fs : Fs) (id : Str) : Prop :=
  ∃ raw entry, findFile fs (id ++ str ".md") = some raw ∧
    parseMemoryFile id raw = .ok entry ∧ entry.type = str "note"

/-- A syntactically valid note whose content is `n` copies of `a`. -/
def bigNote (n : Nat) : MemoryEntry :=
  { id := str "zz-aaaaa", type := str "note", content := List.replicate n 'a'
    created := str "2026-01-01T00:00:00.000Z" }

/-! ### A two-puzzle cycle on which the tree walks never finish -/
/-- An open puzzle for concrete stores, in the shape produced by a
listing. -/
def mkPuzzle (id : String) (title : String) (blocks : List String) : MemoryEntry :=
  { id := str id, type := str "puzzle", content := []
    created := str "2026-01-01T00:00:00.000Z", title := some (str title)
    status := some (str "open")
    blocks := if blocks.isEmpty then none else some (blocks.map str) }

/-- `a` blocks `b` and `b` blocks `a` — constructible through two `link`
commands, since `updatePuzzleBlocks` performs no cycle check. -/
def cycEntries : List MemoryEntry :=
  [mkPuzzle "a" "A" ["b"], mkPuzzle "b" "B" ["a"]]

/-! ### Concrete stores used by the claims -/
/-- Scenario B of the spec: `setup` blocks `a` and `b`; `a` and `b` each
block `main`; all four open. -/
def scenarioB : List MemoryEntry :=
  [mkPuzzle "setup" "Setup" ["a", "b"], mkPuzzle "a" "A" ["main"],
   mkPuzzle "b" "B" ["main"], mkPuzzle "main" "Main" []]

/-- The linear chain of C6: `a` blocks `b` (`a.blocks = [b]`) and `b`
blocks `c` (`b.blocks = [c]`). -/
def chainEntries : List MemoryEntry :=
  [mkPuzzle "a" "A" ["b"], mkPuzzle "b" "B" ["c"], mkPuzzle "c" "C" []]

/-- A topological rank for `chainEntries`. -/
def chainRank : Str → Nat :=
  fun s => if s = str "a" then 0 else if s = str "b" then 1 else 2

/-- A valid small note used by several stores. -/
def goodNote : MemoryEntry :=
  { id := str "zz-ccccc", type := str "note", content := str "hello"
    created := str "2026-01-01T00:00:00.000Z" }

/-- A directory with one decodable note and one corrupt file. -/
def c3fs : Fs :=
  [(str "zz-ccccc.md", serializeMemoryEntry goodNote), (str "bad.md", str "garbage")]

/-- Note content of 32769 bytes, one over the hard cap. -/
def bigContent : Str := List.replicate 32769 'a'

/-- A directory whose first file is corrupt and whose second file is a
33000-byte note. -/
def c5fs : Fs :=
  [(str "bad.md", str "garbage"),
   (str "zz-aaaaa.md", serializeMemoryEntry (bigNote 33000))]

/-- The single note whose content is lost by the failing `replaceNotes`
run of C7. -/
def keepNote : MemoryEntry :=
  { id := str "zz-bbbbb", type := str "note", content := str "keep me"
    created := str "2026-01-01T00:00:00.000Z" }

def c7fs : Fs := [(str "zz-bbbbb.md", serializeMemoryEntry keepNote)]

/-- An open puzzle entry stored on disk, for the C7 witness. -/
def c7puzzle : MemoryEntry :=
  { id := str "zz-ppppp", type := str "puzzle", content := []
    created := str "2026-01-01T00:00:00.000Z", title := some (str "P")
    status := some (str "open") }

def c7pfs : Fs := [(str "zz-ppppp.md", serializeMemoryEntry c7puzzle)]

/-- A demonstration entry exercising every optional field. -/
def demoEntry : MemoryEntry :=
  { id := str "ez-abcde", type := str "puzzle", content := str "line one\n\nline two"
    created := str "2026-01-02T03:04:05.000Z", title := some (str "Main Puzzle")
    status := some (str "open"), closedAt := none
    blocks := some [str "ez-bbbbb", str "ez-ccccc"] }

/-- Raw file of the C8 witness: a `blocks` header that is a number. -/
def c8raw : Str := str "---\ntype: puzzle\ncreated: x\nblocks: 42\n---\nbody\n"

def c8fmt : Str := str "type: puzzle\ncreated: x\nblocks: 42"

def c8body : Str := str "body\n"

def c8fm : FrontMatter :=
  { type := some (.vstr (str "puzzle")), created := some (.vstr (str "x"))
    blocks := some (.vstr (str "42")) }

/-- Raw file of the C8 counterexample: an entry whose `blocks` references
the entry itself. -/
def c8selfRaw : Str :=
  str "---\ntype: puzzle\ncreated: x\nblocks: ab-aaaaa\n---\nbody\n"

/-! ## Theorems -/

theorem splitSep_ne_nil (sep : Char) (s : Str) : splitSep sep s ≠ [] := by
  cases s with
  | nil => simp [splitSep]
  | cons c cs =>
    simp only [splitSep]
    cases h : splitSep sep cs with
    | nil => simp
    | cons y ys => by_cases hc : c = sep <;> simp [hc]

theorem joinSep_splitSep (sep : Char) (s : Str) :
    joinSep sep (splitSep sep s) = s := by
  induction s with
  | nil => rfl
  | cons c cs ih =>
    simp only [splitSep]
    cases h : splitSep sep cs with
    | nil => exact absurd h (splitSep_ne_nil sep cs)
    | cons y ys =>
      rw [h] at ih
      by_cases hc : c = sep
      · subst hc; simpa [joinSep] using ih
      · cases ys with
        | nil => simpa [joinSep, hc] using ih
        | cons z zs => simpa [joinSep, hc] using ih

theorem sep_not_mem_splitSep (sep : Char) (s : Str) :
    ∀ p ∈ splitSep sep s, sep ∉ p := by
  induction s with
  | nil => intro p hp; simp [splitSep] at hp; simp [hp]
  | cons c cs ih =>
    intro p hp
    simp only [splitSep] at hp
    cases h : splitSep sep cs with
    | nil => exact absurd h (splitSep_ne_nil sep cs)
    | cons y ys =>
      rw [h] at hp
      have hy : sep ∉ y := ih y (h ▸ List.mem_cons_self _ _)
      have hys : ∀ q ∈ ys, sep ∉ q := fun q hq =>
        ih q (h ▸ List.mem_cons_of_mem _ hq)
      by_cases hc : c = sep
      · simp only [hc, if_true] at hp
        rcases List.mem_cons.mp hp with rfl | hp2
        · simp
        · rcases List.mem_cons.mp hp2 with rfl | hp3
          · exact hy
          · exact hys p hp3
      · simp only [hc, if_false] at hp
        rcases List.mem_cons.mp hp with rfl | hp2
        · intro hm
          rcases List.mem_cons.mp hm with h1 | h1
          · exact hc h1.symm
          · exact hy h1
        · exact hys p hp2

theorem splitSep_eq_singleton (sep : Char) (x : Str) (hx : sep ∉ x) :
    splitSep sep x = [x] := by
  induction x with
  | nil => rfl
  | cons c cs ih =>
    have hc : c ≠ sep := fun hce => hx (hce ▸ List.mem_cons_self _ _)
    have hcs : sep ∉ cs := fun hm => hx (List.mem_cons_of_mem _ hm)
    simp [splitSep, ih hcs, hc]

theorem splitSep_append_sep (sep : Char) (x r : Str) (hx : sep ∉ x) :
    splitSep sep (x ++ sep :: r) = x :: splitSep sep r := by
  induction x with
  | nil =>
    simp only [List.nil_append, splitSep]
    cases h : splitSep sep r with
    | nil => exact absurd h (splitSep_ne_nil sep r)
    | cons y ys => simp
  | cons c cs ih =>
    have hc : c ≠ sep := fun hce => hx (hce ▸ List.mem_cons_self _ _)
    have hcs : sep ∉ cs := fun hm => hx (List.mem_cons_of_mem _ hm)
    simp only [List.cons_append, splitSep, List.append_eq]
    rw [ih hcs]
    simp [hc]

theorem splitSep_joinSep (sep : Char) (l : List Str) (hne : l ≠ [])
    (h : ∀ p ∈ l, sep ∉ p) : splitSep sep (joinSep sep l) = l := by
  induction l with
  | nil => exact absurd rfl hne
  | cons x xs ih =>
    cases xs with
    | nil => exact splitSep_eq_singleton sep x (h x (List.mem_cons_self _ _))
    | cons y ys =>
      have hx : sep ∉ x := h x (List.mem_cons_self _ _)
      have hrest : ∀ p ∈ y :: ys, sep ∉ p := fun p hp =>
        h p (List.mem_cons_of_mem _ hp)
      show splitSep sep (x ++ sep :: joinSep sep (y :: ys)) = x :: y :: ys
      rw [splitSep_append_sep sep x _ hx, ih (by simp) hrest]

theorem joinSep_append (sep : Char) (a b : List Str) (ha : a ≠ []) (hb : b ≠ []) :
    joinSep sep (a ++ b) = joinSep sep a ++ sep :: joinSep sep b := by
  induction a with
  | nil => exact absurd rfl ha
  | cons x xs ih =>
    cases xs with
    | nil =>
      cases b with
      | nil => exact absurd rfl hb
      | cons y ys => simp [joinSep]
    | cons z zs =>
      have hrec := ih (by simp)
      have hcons : ∀ (w u : Str) (us : List Str),
          joinSep sep (w :: u :: us) = w ++ sep :: joinSep sep (u :: us) :=
        fun _ _ _ => rfl
      simp only [List.cons_append] at hrec ⊢
      rw [hcons x z (zs ++ b), hrec, hcons x z zs]
      simp

theorem dropWhile_eq_self_of_head {p : Char → Bool} {l : Str}
    (h : ∀ x, l.headD 'x' = x → l ≠ [] → p x = false) : l.dropWhile p = l := by
  cases l with
  | nil => rfl
  | cons c cs =>
    have := h c rfl (by simp)
    simp [List.dropWhile_cons, this]

theorem isWS_false_of_dash_le {c : Char} (h : '-' ≤ c) : isWS c = false := by
  have h45 : 45 ≤ c.val := h
  unfold isWS
  by_cases h1 : c = ' '
  · subst h1; exact absurd h (by decide)
  by_cases h2 : c = '\n'
  · subst h2; exact absurd h (by decide)
  by_cases h3 : c = '\t'
  · subst h3; exact absurd h (by decide)
  by_cases h4 : c = '\r'
  · subst h4; exact absurd h (by decide)
  simp [h1, h2, h3, h4]

theorem dash_le_of_isAlnum {c : Char} (h : isAlnum c = true) : '-' ≤ c := by
  unfold isAlnum isLowerAZ isDigit09 isUpperAZ at h
  simp only [Bool.or_eq_true, Bool.and_eq_true, decide_eq_true_eq] at h
  rcases h with (⟨h1, _⟩ | ⟨h1, _⟩) | ⟨h1, _⟩ <;>
    exact le_trans (by decide) h1

theorem dash_le_of_isB32 {c : Char} (h : isB32 c = true) : '-' ≤ c := by
  unfold isB32 isLowerAZ at h
  simp only [Bool.or_eq_true, Bool.and_eq_true, decide_eq_true_eq] at h
  rcases h with ⟨h1, _⟩ | ⟨h1, _⟩ <;> exact le_trans (by decide) h1

theorem getLastD_cons_eq_headD_reverse (l : Str) (d : Char) :
    l.getLastD d = l.reverse.headD d := by
  cases hl : l.reverse with
  | nil =>
    have : l = [] := by simpa using congrArg List.reverse hl
    subst this; rfl
  | cons c cs =>
    have : l = (c :: cs).reverse := by
      have := congrArg List.reverse hl
      simpa using this
    subst this
    simp [List.getLastD_concat]

/-- Dropping surrounding whitespace is the identity when both ends are
already clean. -/
theorem trimChars_eq_self {d : Char} {s : Str}
    (hh : isWS (s.headD d) = false) (hl : isWS (s.getLastD d) = false) :
    trimChars s = s := by
  unfold trimChars
  have h1 : s.dropWhile isWS = s := by
    cases s with
    | nil => rfl
    | cons c cs =>
      have hh2 : isWS c = false := by simpa using hh
      simp [List.dropWhile_cons, hh2]
  rw [h1]
  have h2 : s.reverse.dropWhile isWS = s.reverse := by
    rcases hs : s.reverse with _ | ⟨c, cs⟩
    · rfl
    · have hc : isWS c = false := by
        rw [getLastD_cons_eq_headD_reverse s d, hs] at hl
        simpa using hl
      simp [List.dropWhile_cons, hc]
  rw [h2, List.reverse_reverse]

theorem trimChars_of_all_clean {s : Str} (h : ∀ c ∈ s, isWS c = false) :
    trimChars s = s := by
  refine @trimChars_eq_self 'x' s ?_ ?_
  · cases s with
    | nil => decide
    | cons c cs => exact h c (List.mem_cons_self _ _)
  · cases hs : s.reverse with
    | nil =>
      have : s = [] := by simpa using congrArg List.reverse hs
      subst this; decide
    | cons c cs =>
      rw [getLastD_cons_eq_headD_reverse, hs]
      apply h
      have : c ∈ s.reverse := by rw [hs]; exact List.mem_cons_self _ _
      simpa using this

theorem plainValue_ne_nil {s : Str} (h : plainValue s = true) : s ≠ [] := by
  unfold plainValue at h
  simp only [Bool.and_eq_true, Bool.not_eq_true'] at h
  intro he; subst he; simp at h

theorem plainValue_no_newline {s : Str} (h : plainValue s = true) : '\n' ∉ s := by
  unfold plainValue at h
  simp only [Bool.and_eq_true, Bool.not_eq_true', List.all_eq_true] at h
  intro hm
  have := h.1.1.1.2 '\n' hm
  simp at this

theorem plainValue_trim {s : Str} (h : plainValue s = true) : trimChars s = s := by
  have hp := h
  unfold plainValue at hp
  simp only [Bool.and_eq_true, Bool.not_eq_true'] at hp
  apply trimChars_eq_self
  · exact isWS_false_of_dash_le (dash_le_of_isAlnum hp.1.1.1.1.1.2)
  · exact hp.1.1.1.1.2

theorem idPattern_mem_dash_le {s : Str} (h : idPattern s = true) :
    ∀ c ∈ s, '-' ≤ c := by
  unfold idPattern at h
  simp only [Bool.and_eq_true, decide_eq_true_eq] at h
  obtain ⟨-, hrest⟩ := h
  intro c hc
  have hsplit : s.takeWhile (fun c => isLowerAZ c || isDigit09 c) ++
      s.dropWhile (fun c => isLowerAZ c || isDigit09 c) = s :=
    List.takeWhile_append_dropWhile _ _
  rw [← hsplit] at hc
  rcases List.mem_append.mp hc with hmem | hmem
  · have := List.mem_takeWhile_imp hmem
    simp only [Bool.or_eq_true] at this
    rcases this with h1 | h1
    · unfold isLowerAZ at h1
      simp only [Bool.and_eq_true, decide_eq_true_eq] at h1
      exact le_trans (by decide) h1.1
    · unfold isDigit09 at h1
      simp only [Bool.and_eq_true, decide_eq_true_eq] at h1
      exact le_trans (by decide) h1.1
  · rcases hd : s.dropWhile (fun c => isLowerAZ c || isDigit09 c) with _ | ⟨c0, suf⟩
    · rw [hd] at hmem; simp at hmem
    · rw [hd] at hmem hrest
      split at hrest
      next suf2 heq =>
        injection heq with hc0 hsuf
        rcases List.mem_cons.mp hmem with rfl | hm2
        · rw [hc0]
        · have hall := hrest
          simp only [Bool.and_eq_true] at hall
          exact dash_le_of_isB32 ((List.all_eq_true.mp hall.2) _ (hsuf ▸ hm2))
      next => exact absurd hrest (by simp)

theorem idPattern_ne_nil {s : Str} (h : idPattern s = true) : s ≠ [] := by
  intro he; subst he
  simp [idPattern, List.takeWhile] at h

theorem idPattern_trim {s : Str} (h : idPattern s = true) : trimChars s = s :=
  trimChars_of_all_clean fun c hc =>
    isWS_false_of_dash_le (idPattern_mem_dash_le h c hc)

theorem idPattern_no_newline {s : Str} (h : idPattern s = true) : '\n' ∉ s := by
  intro hm
  have := idPattern_mem_dash_le h '\n' hm
  exact absurd this (by decide)

theorem plainValue_no_cr {s : Str} (h : plainValue s = true) : '\r' ∉ s := by
  unfold plainValue at h
  simp only [Bool.and_eq_true, Bool.not_eq_true', List.all_eq_true] at h
  intro hm
  have := h.1.1.1.2 '\r' hm
  simp at this

/-- Every line the serializer emits for a valid entry is free of newlines
and does not start with a dash (so it can never equal `---`). -/
theorem yamlLines_facts {e : MemoryEntry} (hv : validEntry e = true) :
    ∀ l ∈ yamlLines e, '\n' ∉ l ∧ l ≠ str "---" := by
  have hv2 := hv
  unfold validEntry at hv2
  simp only [Bool.and_eq_true] at hv2
  obtain ⟨⟨⟨⟨⟨⟨hty, hcr⟩, hti⟩, hst⟩, hca⟩, hbl⟩, -⟩ := hv2
  have hne : ∀ (c : Char) (pre v : Str), c ≠ '-' → '\n' ∉ (c :: pre) → '\n' ∉ v →
      ('\n' ∉ (c :: pre) ++ v ∧ (c :: pre) ++ v ≠ str "---") := by
    intro c pre v hc h1 h2
    constructor
    · intro hm
      rcases List.mem_append.mp hm with hm | hm
      · exact h1 hm
      · exact h2 hm
    · intro heq
      have : c = '-' := by
        have := congrArg (fun l => l.headD ' ') heq
        simpa using this
      exact hc this
  intro l hl
  have hl2 : l = str "type: " ++ e.type ∨ l = str "created: " ++ e.created ∨
      l ∈ titleSeg e ∨ l ∈ statusSeg e ∨ l ∈ closedSeg e ∨ l ∈ blocksSeg e := by
    simp only [yamlLines, List.mem_cons, List.mem_append] at hl
    tauto
  have htype_nl : '\n' ∉ e.type := by
    unfold validType at hty
    simp only [Bool.or_eq_true, beq_iff_eq] at hty
    rcases hty with (h | h) | h <;> (intro hm; rw [h] at hm; revert hm; decide)
  rcases hl2 with rfl | rfl | hm | hm | hm | hm
  · exact hne 't' _ _ (by decide) (by decide) htype_nl
  · exact hne 'c' _ _ (by decide) (by decide) (plainValue_no_newline hcr)
  · rcases ht : e.title with _ | t
    · simp [titleSeg, ht] at hm
    · rw [ht] at hti
      by_cases hemp : t.isEmpty
      · simp [titleSeg, ht, hemp] at hm
      · simp only [titleSeg, ht, hemp, Bool.false_eq_true, if_false,
          List.mem_singleton] at hm
        subst hm
        exact hne 't' _ _ (by decide) (by decide) (plainValue_no_newline hti)
  · rcases hs : e.status with _ | s
    · simp [statusSeg, hs] at hm
    · rw [hs] at hst
      have hs2 : s = str "open" ∨ s = str "closed" := by
        simp only [Bool.or_eq_true, beq_iff_eq] at hst
        exact hst
      by_cases hemp : s.isEmpty
      · simp [statusSeg, hs, hemp] at hm
      · simp only [statusSeg, hs, hemp, Bool.false_eq_true, if_false,
          List.mem_singleton] at hm
        subst hm
        refine hne 's' _ _ (by decide) (by decide) ?_
        rcases hs2 with rfl | rfl <;> decide
  · rcases hc : e.closedAt with _ | c
    · simp [closedSeg, hc] at hm
    · rw [hc] at hca
      by_cases hemp : c.isEmpty
      · simp [closedSeg, hc, hemp] at hm
      · simp only [closedSeg, hc, hemp, Bool.false_eq_true, if_false,
          List.mem_singleton] at hm
        subst hm
        exact hne 'c' _ _ (by decide) (by decide) (plainValue_no_newline hca)
  · rcases hb : e.blocks with _ | bl
    · simp [blocksSeg, hb] at hm
    · rw [hb] at hbl
      by_cases hemp : bl.isEmpty
      · simp [blocksSeg, hb, hemp] at hm
      · simp only [blocksSeg, hb, hemp, Bool.false_eq_true, if_false,
          List.mem_cons] at hm
        rcases hm with rfl | hm2
        · exact ⟨by decide, by decide⟩
        · rcases List.mem_map.mp hm2 with ⟨b, hbmem, rfl⟩
          have hid : idPattern b = true := by
            simp only [Bool.and_eq_true, List.all_eq_true] at hbl
            exact hbl.2 b hbmem
          exact hne ' ' _ _ (by decide) (by decide) (idPattern_no_newline hid)

theorem joinSep_cons (sep : Char) (x : Str) (L : List Str) (hL : L ≠ []) :
    joinSep sep (x :: L) = x ++ sep :: joinSep sep L := by
  cases L with
  | nil => exact absurd rfl hL
  | cons y ys => rfl

theorem joinSep_body (C : Str) :
    joinSep '\n' (splitSep '\n' C ++ [[]]) = C ++ ['\n'] := by
  rw [joinSep_append '\n' _ _ (splitSep_ne_nil _ _) (by simp), joinSep_splitSep]
  rfl

theorem serialize_eq_joinSep (e : MemoryEntry) :
    serializeMemoryEntry e = joinSep '\n' (allLines e) := by
  unfold serializeMemoryEntry allLines
  rw [joinSep_cons _ _ _ (by simp [yamlLines]),
      joinSep_append '\n' _ _ (by simp [yamlLines]) (by simp),
      joinSep_cons _ _ _ (by simp),
      joinSep_body]
  have h1 : str "---\n" = str "---" ++ ['\n'] := rfl
  have h2 : str "\n---\n" = '\n' :: (str "---" ++ ['\n']) := rfl
  rw [h1, h2]
  simp [List.append_assoc]

theorem findDelimAux_append (A B : List Str) (hA : ∀ l ∈ A, l ≠ str "---")
    (hB : B ≠ []) : findDelimAux (A ++ str "---" :: B) = some (A, B) := by
  induction A with
  | nil =>
    cases B with
    | nil => exact absurd rfl hB
    | cons y ys => simp [findDelimAux]
  | cons x xs ih =>
    have hx : x ≠ str "---" := hA x (List.mem_cons_self _ _)
    simp only [List.cons_append, findDelimAux, if_neg hx, List.append_eq]
    rw [ih (fun l hl => hA l (List.mem_cons_of_mem _ hl))]

theorem splitFrontMatter_serialize {e : MemoryEntry} (hv : validEntry e = true) :
    splitFrontMatter (serializeMemoryEntry e) =
      some (joinSep '\n' (yamlLines e), e.content ++ ['\n']) := by
  rw [serialize_eq_joinSep]
  have hsplit : splitSep '\n' (joinSep '\n' (allLines e)) = allLines e := by
    apply splitSep_joinSep
    · simp [allLines]
    · intro p hp
      simp only [allLines, List.mem_cons, List.mem_append] at hp
      rcases hp with rfl | hp
      · decide
      rcases hp with hp | hp
      · exact (yamlLines_facts hv p hp).1
      rcases hp with rfl | hp
      · decide
      rcases hp with hp | hp
      · exact sep_not_mem_splitSep '\n' e.content p hp
      · rcases hp with rfl | hp
        · simp
        · simp at hp
  unfold splitFrontMatter
  rw [hsplit]
  show (match str "---" :: ((str "type: " ++ e.type) :: (str "created: " ++ e.created) ::
      (titleSeg e ++ (statusSeg e ++ (closedSeg e ++ blocksSeg e))) ++
      str "---" :: (splitSep '\n' e.content ++ [[]])) with
    | first :: x :: rest =>
      if first = str "---" then
        match findDelimAux rest with
        | some (fmTail, bodyLines) =>
          some (joinSep '\n' (x :: fmTail), joinSep '\n' bodyLines)
        | none => none
      else none
    | _ => none) = _
  simp only [List.cons_append]
  have hfd : findDelimAux ((str "created: " ++ e.created) ::
      ((titleSeg e ++ (statusSeg e ++ (closedSeg e ++ blocksSeg e))) ++
        str "---" :: (splitSep '\n' e.content ++ [[]]))) =
      some ((str "created: " ++ e.created) ::
        (titleSeg e ++ (statusSeg e ++ (closedSeg e ++ blocksSeg e))),
        splitSep '\n' e.content ++ [[]]) := by
    have := findDelimAux_append
      ((str "created: " ++ e.created) ::
        (titleSeg e ++ (statusSeg e ++ (closedSeg e ++ blocksSeg e))))
      (splitSep '\n' e.content ++ [[]])
      (fun l hl => (yamlLines_facts hv l (by
        simp only [yamlLines, List.mem_cons]
        exact Or.inr (List.mem_cons.mp hl))).2)
      (by simp)
    simpa using this
  rw [hfd]
  simp only [if_pos rfl]
  rw [joinSep_body]
  rfl

theorem isEmpty_false_of_ne {l : Str} (h : l ≠ []) : l.isEmpty = false := by
  cases l with
  | nil => exact absurd rfl h
  | cons c cs => rfl

theorem aux_scalar_type (v : Str) (L : List Str) (fm : FrontMatter)
    (h : parseYamlAux L = .ok (fm, [])) :
    parseYamlAux ((str "type: " ++ v) :: L) =
      .ok ({ fm with type := some (.vstr (trimChars v)) }, []) := by
  rw [parseYamlAux, h]; rfl

theorem aux_scalar_created (v : Str) (L : List Str) (fm : FrontMatter)
    (h : parseYamlAux L = .ok (fm, [])) :
    parseYamlAux ((str "created: " ++ v) :: L) =
      .ok ({ fm with created := some (.vstr (trimChars v)) }, []) := by
  rw [parseYamlAux, h]; rfl

theorem aux_scalar_title (v : Str) (L : List Str) (fm : FrontMatter)
    (h : parseYamlAux L = .ok (fm, [])) :
    parseYamlAux ((str "title: " ++ v) :: L) =
      .ok ({ fm with title := some (.vstr (trimChars v)) }, []) := by
  rw [parseYamlAux, h]; rfl

theorem aux_scalar_status (v : Str) (L : List Str) (fm : FrontMatter)
    (h : parseYamlAux L = .ok (fm, [])) :
    parseYamlAux ((str "status: " ++ v) :: L) =
      .ok ({ fm with status := some (.vstr (trimChars v)) }, []) := by
  rw [parseYamlAux, h]; rfl

theorem aux_scalar_closedAt (v : Str) (L : List Str) (fm : FrontMatter)
    (h : parseYamlAux L = .ok (fm, [])) :
    parseYamlAux ((str "closedAt: " ++ v) :: L) =
      .ok ({ fm with closedAt := some (.vstr (trimChars v)) }, []) := by
  rw [parseYamlAux, h]; rfl

theorem aux_item (b : Str) (L : List Str) (fm : FrontMatter) (pend : List Str)
    (h : parseYamlAux L = .ok (fm, pend)) :
    parseYamlAux ((str "  - " ++ b) :: L) = .ok (fm, trimChars b :: pend) := by
  rw [parseYamlAux, h]; rfl

theorem aux_items (l : List Str) (L : List Str) (fm : FrontMatter)
    (h : parseYamlAux L = .ok (fm, [])) :
    parseYamlAux ((l.map (fun b => str "  - " ++ b)) ++ L) =
      .ok (fm, l.map trimChars) := by
  induction l with
  | nil => simpa using h
  | cons b bs ih =>
    simp only [List.map_cons, List.cons_append]
    exact aux_item b _ _ _ ih

theorem aux_blocks (b : Str) (bs : List Str) (L : List Str) (fm : FrontMatter)
    (h : parseYamlAux L = .ok (fm, [])) :
    parseYamlAux ((str "blocks:") :: ((b :: bs).map (fun x => str "  - " ++ x) ++ L)) =
      .ok ({ fm with
        blocks := some (.vlist (((b :: bs).map trimChars).map .vstr)) }, []) := by
  have hi := aux_items (b :: bs) L fm h
  rw [parseYamlAux, hi]; rfl

theorem parseYamlAux_yamlLines {e : MemoryEntry} (hv : validEntry e = true) :
    parseYamlAux (yamlLines e) = .ok (fmOf e, []) := by
  have hv2 := hv
  unfold validEntry at hv2
  simp only [Bool.and_eq_true] at hv2
  obtain ⟨⟨⟨⟨⟨⟨hty, hcr⟩, hti⟩, hst⟩, hca⟩, hbl⟩, -⟩ := hv2
  have hB : parseYamlAux (blocksSeg e) =
      .ok ({ blocks := (fmOf e).blocks }, []) := by
    rcases hb : e.blocks with _ | l
    · simp only [blocksSeg, hb, fmOf, Option.map_none']
      rfl
    · rw [hb] at hbl
      simp only [Bool.and_eq_true, Bool.not_eq_true', List.all_eq_true] at hbl
      rcases l with _ | ⟨b, bs⟩
      · simp at hbl
      · have htrim : (b :: bs).map trimChars = b :: bs := by
          have h1 : List.map (fun x => trimChars x) (b :: bs) =
              List.map (fun x => x) (b :: bs) :=
            List.map_congr_left fun x hx => idPattern_trim (hbl.2 x hx)
          simpa using h1
        simp only [blocksSeg, hb, List.isEmpty_cons, Bool.false_eq_true, if_false]
        have := aux_blocks b bs [] {} rfl
        rw [List.append_nil] at this
        rw [this, htrim]
        simp [fmOf, hb]
  have hC : parseYamlAux (closedSeg e ++ blocksSeg e) =
      .ok ({ closedAt := (fmOf e).closedAt, blocks := (fmOf e).blocks }, []) := by
    rcases hc : e.closedAt with _ | c
    · simp only [closedSeg, hc, List.nil_append]
      rw [hB]
      simp [fmOf, hc]
    · rw [hc] at hca
      simp only [closedSeg, hc,
        isEmpty_false_of_ne (plainValue_ne_nil hca), Bool.false_eq_true, if_false,
        List.singleton_append]
      rw [aux_scalar_closedAt c _ _ hB, plainValue_trim hca]
      simp [fmOf, hc]
  have hS : parseYamlAux (statusSeg e ++ (closedSeg e ++ blocksSeg e)) =
      .ok ({ status := (fmOf e).status, closedAt := (fmOf e).closedAt,
             blocks := (fmOf e).blocks }, []) := by
    rcases hs : e.status with _ | s
    · simp only [statusSeg, hs, List.nil_append]
      rw [hC]
      simp [fmOf, hs]
    · rw [hs] at hst
      have hs2 : s = str "open" ∨ s = str "closed" := by
        simp only [Bool.or_eq_true, beq_iff_eq] at hst
        exact hst
      have hne : s ≠ [] := by rcases hs2 with rfl | rfl <;> decide
      have htr : trimChars s = s := by rcases hs2 with rfl | rfl <;> decide
      simp only [statusSeg, hs, isEmpty_false_of_ne hne, Bool.false_eq_true,
        if_false, List.singleton_append]
      rw [aux_scalar_status s _ _ hC, htr]
      simp [fmOf, hs]
  have hT : parseYamlAux (titleSeg e ++ (statusSeg e ++ (closedSeg e ++ blocksSeg e))) =
      .ok ({ title := (fmOf e).title, status := (fmOf e).status,
             closedAt := (fmOf e).closedAt, blocks := (fmOf e).blocks }, []) := by
    rcases ht : e.title with _ | t
    · simp only [titleSeg, ht, List.nil_append]
      rw [hS]
      simp [fmOf, ht]
    · rw [ht] at hti
      simp only [titleSeg, ht,
        isEmpty_false_of_ne (plainValue_ne_nil hti), Bool.false_eq_true, if_false,
        List.singleton_append]
      rw [aux_scalar_title t _ _ hS, plainValue_trim hti]
      simp [fmOf, ht]
  have htype_trim : trimChars e.type = e.type := by
    unfold validType at hty
    simp only [Bool.or_eq_true, beq_iff_eq] at hty
    rcases hty with (h | h) | h <;> (rw [h]; decide)
  show parseYamlAux ((str "type: " ++ e.type) :: (str "created: " ++ e.created) ::
    (titleSeg e ++ (statusSeg e ++ (closedSeg e ++ blocksSeg e)))) = _
  rw [aux_scalar_type e.type _ _
        (by rw [aux_scalar_created e.created _ _ hT, plainValue_trim hcr]),
      htype_trim]
  simp [fmOf]

theorem trimChars_append_newline (s : Str) :
    trimChars (s ++ ['\n']) = trimChars s := by
  unfold trimChars
  rw [List.dropWhile_append]
  by_cases h : (s.dropWhile isWS).isEmpty
  · rw [if_pos h]
    have h0 : s.dropWhile isWS = [] := by
      cases hd : s.dropWhile isWS with
      | nil => rfl
      | cons c cs => rw [hd] at h; simp at h
    rw [h0]
    rfl
  · rw [if_neg h]
    rw [List.reverse_append]
    show (List.dropWhile isWS ('\n' :: (s.dropWhile isWS).reverse)).reverse = _
    rw [List.dropWhile_cons, if_pos (show isWS '\n' = true by decide)]

theorem normalizeBlocks_roundtrip (l : List Str) (hne : l ≠ [])
    (hall : ∀ b ∈ l, idPattern b = true) :
    normalizeBlocks (some (.vlist (l.map .vstr))) = some l := by
  have h1 : (l.map YamlVal.vstr).filterMap asVstr = l := by
    rw [List.filterMap_map]
    have h : (asVstr ∘ YamlVal.vstr) = some := rfl
    rw [h, List.filterMap_some]
  have h2 : l.map trimChars = l := by
    have := List.map_congr_left (fun x hx => idPattern_trim (hall x hx))
    simpa using this
  have h3 : l.filter (fun id => decide (0 < id.length) && idPattern id) = l := by
    apply List.filter_eq_self.mpr
    intro b hb
    have hp := hall b hb
    have hlen : 0 < b.length := List.length_pos.mpr (idPattern_ne_nil hp)
    simp [hp, hlen]
  show (if ((((l.map YamlVal.vstr).filterMap asVstr).map trimChars).filter
      (fun id => decide (0 < id.length) && idPattern id)).isEmpty then none
    else some ((((l.map YamlVal.vstr).filterMap asVstr).map trimChars).filter
      (fun id => decide (0 < id.length) && idPattern id))) = some l
  rw [h1, h2, h3]
  simp [List.isEmpty_iff, hne]

theorem buildEntry_fmOf {e : MemoryEntry} (hv : validEntry e = true) :
    buildEntry e.id (fmOf e) e.content = e := by
  have hv2 := hv
  unfold validEntry at hv2
  simp only [Bool.and_eq_true] at hv2
  obtain ⟨⟨⟨⟨⟨⟨-, -⟩, -⟩, hst⟩, -⟩, hbl⟩, -⟩ := hv2
  unfold buildEntry fmOf
  cases e with
  | mk id ty content created closedAt title status blocks =>
    simp only at hst hbl ⊢
    congr 1
    · cases closedAt <;> rfl
    · cases title <;> rfl
    · cases hs : status with
      | none => rfl
      | some s =>
        rw [hs] at hst
        have hs2 : s = str "open" ∨ s = str "closed" := by
          simp only [Bool.or_eq_true, beq_iff_eq] at hst
          exact hst
        rcases hs2 with rfl | rfl <;> rfl
    · cases hb : blocks with
      | none => rfl
      | some l =>
        rw [hb] at hbl
        simp only [Bool.and_eq_true, Bool.not_eq_true', List.all_eq_true] at hbl
        show normalizeBlocks (some (YamlVal.vlist (l.map YamlVal.vstr))) = some l
        exact normalizeBlocks_roundtrip l
          (by intro hl; subst hl; simp at hbl) hbl.2

/-- Core round-trip: decoding the encoding of a valid entry restores it
exactly. -/
theorem parseMemoryFile_serialize {e : MemoryEntry} (hv : validEntry e = true) :
    parseMemoryFile e.id (serializeMemoryEntry e) = .ok e := by
  have hcontent : trimChars e.content = e.content := by
    have hv2 := hv
    unfold validEntry at hv2
    simp only [Bool.and_eq_true, beq_iff_eq] at hv2
    exact hv2.2
  have hy : parseYamlFM (joinSep '\n' (yamlLines e)) = .ok (fmOf e) := by
    unfold parseYamlFM
    rw [splitSep_joinSep '\n' (yamlLines e) (by simp [yamlLines])
          (fun p hp => (yamlLines_facts hv p hp).1),
        parseYamlAux_yamlLines hv]
    rfl
  unfold parseMemoryFile
  rw [splitFrontMatter_serialize hv]
  show (match parseYamlFM (joinSep '\n' (yamlLines e)) with
    | Except.error err => Except.error err
    | Except.ok fm =>
      Except.ok (buildEntry e.id fm (trimChars (e.content ++ ['\n'])))) = _
  rw [hy]
  show Except.ok (buildEntry e.id (fmOf e) (trimChars (e.content ++ ['\n']))) = _
  rw [trimChars_append_newline, hcontent, buildEntry_fmOf hv]

/-! ### Termination of the tree walks on acyclic stores

A store is acyclic exactly when the `blocks` edges admit a strictly
increasing rank.  Under such a rank, every walk finishes within
`N + 1` steps where `N` bounds the ranks; on a cyclic store the fuel
runs out at every fuel value (see the two-puzzle cycle below). -/
theorem lookupEntry_mem {entries : List MemoryEntry} {id : Str} {p : MemoryEntry}
    (h : lookupEntry entries id = some p) : p ∈ entries := by
  induction entries with
  | nil => simp [lookupEntry] at h
  | cons e rest ih =>
    rw [lookupEntry] at h
    by_cases he : e.id = id
    · rw [if_pos he] at h
      exact (Option.some.injEq _ _ ▸ h) ▸ List.mem_cons_self _ _
    · rw [if_neg he] at h
      exact List.mem_cons_of_mem _ (ih h)

theorem lookupEntry_id {entries : List MemoryEntry} {id : Str} {p : MemoryEntry}
    (h : lookupEntry entries id = some p) : p.id = id := by
  induction entries with
  | nil => simp [lookupEntry] at h
  | cons e rest ih =>
    rw [lookupEntry] at h
    by_cases he : e.id = id
    · rw [if_pos he] at h
      cases h
      exact he
    · rw [if_neg he] at h
      exact ih h

theorem mem_of_head? {l : List Str} {a : Str} (h : l.head? = some a) : a ∈ l := by
  cases l with
  | nil => simp at h
  | cons x xs =>
    simp only [List.head?_cons, Option.some.injEq] at h
    exact h ▸ List.mem_cons_self _ _

theorem ancGo_terminates {entries : List MemoryEntry} {rank : Str → Nat} {N : Nat}
    (hedge : RankedBelow entries rank N) :
    ∀ n current acc, rank current ≤ N → N + 1 ≤ n + rank current →
      ancGo entries n current acc ≠ none := by
  intro n
  induction n with
  | zero => intro current acc h1 h2; omega
  | succ n ih =>
    intro current acc h1 h2
    by_cases hemp : current.isEmpty
    · simp [ancGo, hemp]
    · simp only [ancGo, hemp, Bool.false_eq_true, if_false]
      cases hl : lookupEntry entries current with
      | none => simp
      | some p =>
        by_cases hty : p.type = str "puzzle"
        · simp only [hty, eq_self_iff_true, if_true]
          cases hh : (getBlocksList p).head? with
          | none => simp
          | some nxt =>
            by_cases hnxt : nxt.isEmpty
            · simp [hnxt]
            · simp only [hnxt, Bool.false_eq_true, if_false]
              have hpe : p ∈ entries := lookupEntry_mem hl
              have hbm : nxt ∈ getBlocksList p := mem_of_head? hh
              have hid : p.id = current := lookupEntry_id hl
              have hr := hedge p hpe nxt hbm
              rw [hid] at hr
              exact ih nxt (nxt :: acc) hr.2 (by omega)
        · simp [hty]

theorem rancGo_terminates {entries : List MemoryEntry} {rank : Str → Nat} {N : Nat}
    (hedge : RankedBelow entries rank N) :
    ∀ n current acc, rank current ≤ N → N + 1 ≤ n + rank current →
      rancGo entries n current acc ≠ none := by
  intro n
  induction n with
  | zero => intro current acc h1 h2; omega
  | succ n ih =>
    intro current acc h1 h2
    by_cases hemp : current.isEmpty
    · simp [rancGo, hemp]
    · simp only [rancGo, hemp, Bool.false_eq_true, if_false]
      cases hl : lookupEntry entries current with
      | none => simp
      | some p =>
        by_cases hty : p.type = str "puzzle"
        · simp only [hty, eq_self_iff_true, if_true]
          cases hh : (getBlocksList p).head? with
          | none => simp
          | some nxt =>
            by_cases hnxt : nxt.isEmpty
            · simp [hnxt]
            · simp only [hnxt, Bool.false_eq_true, if_false]
              have hpe : p ∈ entries := lookupEntry_mem hl
              have hbm : nxt ∈ getBlocksList p := mem_of_head? hh
              have hid : p.id = current := lookupEntry_id hl
              have hr := hedge p hpe nxt hbm
              rw [hid] at hr
              exact ih nxt (current :: acc) hr.2 (by omega)
        · simp [hty]

theorem descGoStep_ne_none {recur : Str → Option (List Str)}
    {l : List MemoryEntry} {pid : Str}
    (h : ∀ e ∈ l, (getBlocksList e).contains pid = true → recur e.id ≠ none) :
    descGoStep recur l pid ≠ none := by
  induction l with
  | nil => simp [descGoStep]
  | cons e rest ih =>
    rw [descGoStep]
    by_cases hc : (getBlocksList e).contains pid = true
    · rw [if_pos hc]
      cases hr : recur e.id with
      | none => exact absurd hr (h e (List.mem_cons_self _ _) hc)
      | some sub =>
        cases hs : descGoStep recur rest pid with
        | none =>
          exact absurd hs (ih fun e2 he2 hc2 => h e2 (List.mem_cons_of_mem _ he2) hc2)
        | some tl => simp
    · rw [if_neg hc]
      exact ih fun e2 he2 hc2 => h e2 (List.mem_cons_of_mem _ he2) hc2

theorem descGo_terminates {entries : List MemoryEntry} {rank : Str → Nat} {N : Nat}
    (hedge : RankedBelow entries rank N) :
    ∀ n pid, rank pid < n → descGo entries n pid ≠ none := by
  intro n
  induction n with
  | zero => intro pid h; omega
  | succ n ih =>
    intro pid h
    rw [descGo]
    apply descGoStep_ne_none
    intro e he hcont
    have hm : pid ∈ getBlocksList e := by
      simpa using hcont
    have := hedge e he pid hm
    exact ih e.id (by omega)

theorem rdescGoStep_ne_none {recur : Str → Nat → Option (List (Str × Nat))}
    {l : List MemoryEntry} {pid : Str} {depth : Nat}
    (h : ∀ e ∈ l, (getBlocksList e).contains pid = true →
      recur e.id (depth + 1) ≠ none) :
    rdescGoStep recur l pid depth ≠ none := by
  induction l with
  | nil => simp [rdescGoStep]
  | cons e rest ih =>
    rw [rdescGoStep]
    by_cases hc : (getBlocksList e).contains pid = true
    · rw [if_pos hc]
      cases hr : recur e.id (depth + 1) with
      | none => exact absurd hr (h e (List.mem_cons_self _ _) hc)
      | some sub =>
        cases hs : rdescGoStep recur rest pid depth with
        | none =>
          exact absurd hs (ih fun e2 he2 hc2 => h e2 (List.mem_cons_of_mem _ he2) hc2)
        | some tl => simp
    · rw [if_neg hc]
      exact ih fun e2 he2 hc2 => h e2 (List.mem_cons_of_mem _ he2) hc2

theorem rdescGo_terminates {entries : List MemoryEntry} {rank : Str → Nat} {N : Nat}
    (hedge : RankedBelow entries rank N) :
    ∀ n pid depth, rank pid < n → rdescGo entries n pid depth ≠ none := by
  intro n
  induction n with
  | zero => intro pid depth h; omega
  | succ n ih =>
    intro pid depth h
    rw [rdescGo]
    apply rdescGoStep_ne_none
    intro e he hcont
    have hm : pid ∈ getBlocksList e := by
      simpa using hcont
    have := hedge e he pid hm
    exact ih e.id (depth + 1) (by omega)

theorem getPuzzleTree_isSome {entries : List MemoryEntry} {rank : Str → Nat}
    {N : Nat} (hedge : RankedBelow entries rank N) {root : Str}
    (hroot : rank root ≤ N) :
    (getPuzzleTree entries (N + 1) root).isSome = true := by
  unfold getPuzzleTree
  cases ha : ancGo entries (N + 1) root [] with
  | none =>
    exact absurd ha (ancGo_terminates hedge (N + 1) root [] hroot (by omega))
  | some anc =>
    cases hd : descGo entries (N + 1) root with
    | none => exact absurd hd (descGo_terminates hedge (N + 1) root (by omega))
    | some desc => rfl

/-! ### Sorting facts for the listing -/
theorem lexLt_asymm : ∀ {x y : Str}, lexLt x y = true → lexLt y x = false
  | [], [], h => by simp [lexLt] at h
  | [], _ :: _, _ => by simp [lexLt]
  | _ :: _, [], h => by simp [lexLt] at h
  | a :: as, b :: bs, h => by
    rw [lexLt] at h
    rw [lexLt]
    by_cases hab : a < b
    · rw [if_neg (asymm hab), if_pos hab]
    · rw [if_neg hab] at h
      by_cases hba : b < a
      · rw [if_pos hba] at h
        simp at h
      · rw [if_neg hba] at h
        rw [if_neg hba, if_neg hab]
        exact lexLt_asymm h

theorem lexLt_neg_trans : ∀ {x z : Str}, lexLt x z = true →
    ∀ y, lexLt x y = true ∨ lexLt y z = true
  | [], [], h, _ => by simp [lexLt] at h
  | _ :: _, [], h, _ => by simp [lexLt] at h
  | [], _ :: _, _, y => by
    cases y with
    | nil => exact Or.inr (by simp [lexLt])
    | cons c cs => exact Or.inl (by simp [lexLt])
  | a :: as, c :: cs, h, y => by
    cases y with
    | nil => exact Or.inr (by simp [lexLt])
    | cons b bs =>
      rw [lexLt] at h
      by_cases hab : a < b
      · exact Or.inl (by rw [lexLt, if_pos hab])
      by_cases hba : b < a
      · refine Or.inr ?_
        rw [lexLt]
        by_cases hac : a < c
        · rw [if_pos (lt_trans hba hac)]
        · rw [if_neg hac] at h
          by_cases hca : c < a
          · rw [if_pos hca] at h; simp at h
          · have : a = c := le_antisymm (not_lt.mp hca) (not_lt.mp hac)
            rw [if_pos (this ▸ hba)]
      · have hab2 : a = b := le_antisymm (not_lt.mp hba) (not_lt.mp hab)
        by_cases hac : a < c
        · exact Or.inr (by rw [lexLt, if_pos (hab2 ▸ hac)])
        · rw [if_neg hac] at h
          by_cases hca : c < a
          · rw [if_pos hca] at h; simp at h
          · rw [if_neg hca] at h
            rcases lexLt_neg_trans h bs with h2 | h2
            · exact Or.inl (by rw [lexLt, if_neg hab, if_neg hba]; exact h2)
            · refine Or.inr ?_
              rw [lexLt, if_neg (hab2 ▸ hac), if_neg (hab2 ▸ hca)]
              exact h2

/-- The listing comparator is total. -/
theorem newerFirst_total (a b : MemoryEntry) :
    newerFirst a b = true ∨ newerFirst b a = true := by
  unfold newerFirst
  by_cases h : lexLt a.created b.created = true
  · have := lexLt_asymm h
    right
    simp [this]
  · left
    simp [Bool.not_eq_true] at h
    simp [h]

/-- The listing comparator is transitive. -/
theorem newerFirst_trans (a b c : MemoryEntry) (h1 : newerFirst a b = true)
    (h2 : newerFirst b c = true) : newerFirst a c = true := by
  unfold newerFirst at h1 h2 ⊢
  simp only [Bool.not_eq_true'] at h1 h2 ⊢
  by_cases h : lexLt a.created c.created = true
  · rcases lexLt_neg_trans h b.created with h3 | h3
    · rw [h3] at h1; cases h1
    · rw [h3] at h2; cases h2
  · simpa using h

theorem insertSorted_perm (le : α → α → Bool) (x : α) (l : List α) :
    List.Perm (insertSorted le x l) (x :: l) := by
  induction l with
  | nil => rfl
  | cons y ys ih =>
    rw [insertSorted]
    by_cases h : le x y = true
    · rw [if_pos h]
    · rw [if_neg h]
      exact List.Perm.trans (List.Perm.cons y ih) (List.Perm.swap x y ys)

theorem sortByLe_perm (le : α → α → Bool) (l : List α) :
    List.Perm (sortByLe le l) l := by
  induction l with
  | nil => rfl
  | cons x xs ih =>
    show List.Perm (insertSorted le x (sortByLe le xs)) (x :: xs)
    exact List.Perm.trans (insertSorted_perm le x _) (List.Perm.cons x ih)

theorem insertSorted_pairwise (le : α → α → Bool)
    (htot : ∀ a b, le a b = true ∨ le b a = true)
    (htrans : ∀ a b c, le a b = true → le b c = true → le a c = true)
    (x : α) (l : List α) (hl : List.Pairwise (fun a b => le a b = true) l) :
    List.Pairwise (fun a b => le a b = true) (insertSorted le x l) := by
  induction l with
  | nil => simp [insertSorted]
  | cons y ys ih =>
    rw [insertSorted]
    rcases List.pairwise_cons.mp hl with ⟨hy, hys⟩
    by_cases h : le x y = true
    · rw [if_pos h]
      refine List.pairwise_cons.mpr ⟨?_, hl⟩
      intro z hz
      rcases List.mem_cons.mp hz with rfl | hz2
      · exact h
      · exact htrans x y z h (hy z hz2)
    · rw [if_neg h]
      refine List.pairwise_cons.mpr ⟨?_, ih hys⟩
      intro z hz
      have hz2 : z ∈ x :: ys := (insertSorted_perm le x ys).mem_iff.mp hz
      rcases List.mem_cons.mp hz2 with hzx | hz3
      · subst hzx
        rcases htot z y with h2 | h2
        · exact absurd h2 h
        · exact h2
      · exact hy z hz3

theorem sortByLe_pairwise (le : α → α → Bool)
    (htot : ∀ a b, le a b = true ∨ le b a = true)
    (htrans : ∀ a b c, le a b = true → le b c = true → le a c = true)
    (l : List α) :
    List.Pairwise (fun a b => le a b = true) (sortByLe le l) := by
  induction l with
  | nil => simp [sortByLe]
  | cons x xs ih =>
    exact insertSorted_pairwise le htot htrans x _ ih

/-! ### Listing behaviour in the presence of corrupt files -/
theorem listGo_cons_skip {t : Option Str} {name contents : Str} {rest : Fs}
    (hd : dropMd name = none) :
    listGo t ((name, contents) :: rest) = listGo t rest := by
  rw [listGo, hd]

theorem listGo_cons_md {t : Option Str} {name contents : Str} {rest : Fs}
    {id0 : Str} (hd : dropMd name = some id0) :
    listGo t ((name, contents) :: rest) =
      (match parseMemoryFile id0 contents with
       | .error e => .error e
       | .ok entry =>
         match listGo t rest with
         | .error e => .error e
         | .ok l =>
           .ok (if (match t with
                    | none => true
                    | some ty => decide (entry.type = ty)) = true
                then entry :: l else l)) := by
  rw [listGo, hd]

theorem listGo_isOk_false {t : Option Str} {fs : Fs}
    (h : ∃ p ∈ fs, ∃ id, dropMd p.1 = some id ∧ (parseMemoryFile id p.2).isOk = false) :
    (listGo t fs).isOk = false := by
  induction fs with
  | nil => simp at h
  | cons q rest ih =>
    obtain ⟨name, contents⟩ := q
    cases hd : dropMd name with
    | none =>
      rw [listGo_cons_skip hd]
      apply ih
      obtain ⟨p, hp, id, hid, hbad⟩ := h
      rcases List.mem_cons.mp hp with rfl | hmem
      · rw [hd] at hid; cases hid
      · exact ⟨p, hmem, id, hid, hbad⟩
    | some id0 =>
      rw [listGo_cons_md hd]
      cases hpf : parseMemoryFile id0 contents with
      | error e => rfl
      | ok entry =>
        cases hlg : listGo t rest with
        | error e2 => rfl
        | ok l =>
          obtain ⟨p, hp, id, hid, hbad⟩ := h
          rcases List.mem_cons.mp hp with rfl | hmem
          · simp only at hid hbad
            rw [hd] at hid
            cases hid
            rw [hpf] at hbad
            simp [Except.isOk, Except.toBool] at hbad
          · have := ih ⟨p, hmem, id, hid, hbad⟩
            rw [hlg] at this
            simp [Except.isOk, Except.toBool] at this

theorem listMemoryEntries_some (fs : Fs) (t : Option Str) :
    listMemoryEntries (some fs) t =
      (match listGo t fs with
       | .error _ => []
       | .ok l => sortByLe newerFirst l) := rfl

/-- Any single undecodable `.md` file empties the whole listing. -/
theorem listMemoryEntries_empty_of_bad {t : Option Str} {fs : Fs}
    (h : ∃ p ∈ fs, ∃ id, dropMd p.1 = some id ∧ (parseMemoryFile id p.2).isOk = false) :
    listMemoryEntries (some fs) t = [] := by
  rw [listMemoryEntries_some]
  cases hlg : listGo t fs with
  | error e => rfl
  | ok l =>
    have := @listGo_isOk_false t fs h
    rw [hlg] at this
    simp [Except.isOk, Except.toBool] at this

/-- When the scan succeeds, the listing is exactly its result sorted by
`created` descending: a permutation of the scanned entries that is
pairwise ordered by the comparator. -/
theorem listMemoryEntries_of_ok {t : Option Str} {fs : Fs} {l : List MemoryEntry}
    (h : listGo t fs = .ok l) :
    listMemoryEntries (some fs) t = sortByLe newerFirst l ∧
    List.Perm (listMemoryEntries (some fs) t) l ∧
    List.Pairwise (fun a b => newerFirst a b = true) (listMemoryEntries (some fs) t) := by
  have he : listMemoryEntries (some fs) t = sortByLe newerFirst l := by
    rw [listMemoryEntries_some, h]
  refine ⟨he, ?_, ?_⟩
  · rw [he]; exact sortByLe_perm _ _
  · rw [he]
    exact sortByLe_pairwise newerFirst newerFirst_total newerFirst_trans l

/-! ### Current vs. earlier `getPuzzleTree` -/
theorem toOldEntry_id (e : MemoryEntry) : (toOldEntry e).id = e.id := rfl

theorem toOldEntry_blocks (e : MemoryEntry) :
    (toOldEntry e).blocks = (getBlocksList e).head? := by
  unfold toOldEntry getBlocksList
  cases e.blocks <;> rfl

theorem lookupEntryOld_map (entries : List MemoryEntry) (id : Str) :
    lookupEntryOld (entries.map toOldEntry) id = (lookupEntry entries id).map toOldEntry := by
  induction entries with
  | nil => rfl
  | cons e rest ih =>
    rw [List.map_cons, lookupEntryOld, lookupEntry]
    by_cases he : e.id = id
    · rw [if_pos (by rw [toOldEntry_id]; exact he), if_pos he]
      rfl
    · rw [if_neg (by rw [toOldEntry_id]; exact he), if_neg he]
      exact ih

theorem oldAncGo_map (entries : List MemoryEntry) :
    ∀ n current acc,
      oldAncGo (entries.map toOldEntry) n current acc = ancGo entries n current acc := by
  intro n
  induction n with
  | zero => intro current acc; rfl
  | succ n ih =>
    intro current acc
    rw [oldAncGo, ancGo]
    by_cases hemp : current.isEmpty
    · simp [hemp]
    · simp only [hemp, Bool.false_eq_true, if_false]
      rw [lookupEntryOld_map]
      cases hl : lookupEntry entries current with
      | none => rfl
      | some p =>
        simp only [Option.map_some']
        have hty : (toOldEntry p).type = p.type := rfl
        by_cases ht : p.type = str "puzzle"
        · simp only [hty, ht, eq_self_iff_true, if_true, toOldEntry_blocks]
          cases hh : (getBlocksList p).head? with
          | none => rfl
          | some nxt =>
            by_cases hn : nxt.isEmpty
            · simp [hn]
            · simp only [hn, Bool.false_eq_true, if_false]
              exact ih nxt (nxt :: acc)
        · simp [hty, ht]

/-- On stores whose `blocks` lists have at most one element, the old
membership test `blocks === pid` agrees with the new `includes`. -/
theorem oldCond_eq_newCond (e : MemoryEntry)
    (hlen : (getBlocksList e).length ≤ 1) (pid : Str) :
    ((toOldEntry e).blocks == some pid) = (getBlocksList e).contains pid := by
  rw [toOldEntry_blocks]
  rcases hb : getBlocksList e with _ | ⟨x, rest⟩
  · simp
  · rcases rest with _ | ⟨y, rest2⟩
    · rcases Decidable.em (x = pid) with hxp | hxp
      · subst hxp; simp [List.contains]
      · have h2 : ¬ pid = x := fun he => hxp he.symm
        simp [List.contains, beq_iff_eq, hxp, h2]
    · rw [hb] at hlen
      simp at hlen

theorem oldDescGoStep_map
    (recurOld : Str → Option (List Str)) (recurNew : Str → Option (List Str))
    (hrec : ∀ i, recurOld i = recurNew i) :
    ∀ (l : List MemoryEntry), (∀ e ∈ l, (getBlocksList e).length ≤ 1) → ∀ pid,
      oldDescGoStep recurOld (l.map toOldEntry) pid = descGoStep recurNew l pid := by
  intro l
  induction l with
  | nil => intro _ pid; rfl
  | cons e rest ih =>
    intro hlen pid
    rw [List.map_cons, oldDescGoStep, descGoStep]
    rw [oldCond_eq_newCond e (hlen e (List.mem_cons_self _ _)) pid]
    by_cases hc : (getBlocksList e).contains pid = true
    · rw [if_pos hc, if_pos hc, toOldEntry_id, hrec e.id]
      cases recurNew e.id with
      | none => rfl
      | some sub =>
        rw [ih (fun e2 he2 => hlen e2 (List.mem_cons_of_mem _ he2)) pid]
    · rw [if_neg hc, if_neg hc]
      exact ih (fun e2 he2 => hlen e2 (List.mem_cons_of_mem _ he2)) pid

theorem oldDescGo_map (entries : List MemoryEntry)
    (hlen : ∀ e ∈ entries, (getBlocksList e).length ≤ 1) :
    ∀ n pid, oldDescGo (entries.map toOldEntry) n pid = descGo entries n pid := by
  intro n
  induction n with
  | zero => intro pid; rfl
  | succ n ih =>
    intro pid
    rw [oldDescGo, descGo]
    exact oldDescGoStep_map _ _ (fun i => ih i) entries hlen pid

/-- Refinement: on singleton-or-empty `blocks` stores the earlier
`getPuzzleTree` computes the same ordered id sequence as the current
one. -/
theorem getPuzzleTreeOld_map (entries : List MemoryEntry)
    (hlen : ∀ e ∈ entries, (getBlocksList e).length ≤ 1) (fuel : Nat) (root : Str) :
    getPuzzleTreeOld (entries.map toOldEntry) fuel root =
      getPuzzleTree entries fuel root := by
  unfold getPuzzleTreeOld getPuzzleTree
  rw [oldAncGo_map entries fuel root [], oldDescGo_map entries hlen fuel root]

theorem validateNotes_cons_missing {fs : Fs} {id : Str} {rest : List Str}
    (hf : findFile fs (id ++ str ".md") = none) :
    validateNotes fs (id :: rest) = some (.notFound id) := by
  rw [validateNotes, hf]

theorem validateNotes_cons_found {fs : Fs} {id : Str} {rest : List Str} {raw : Str}
    (hf : findFile fs (id ++ str ".md") = some raw) :
    validateNotes fs (id :: rest) =
      (match parseMemoryFile id raw with
       | .error e => some e
       | .ok entry =>
         if entry.type = str "note" then validateNotes fs rest
         else some (.wrongType id)) := by
  rw [validateNotes, hf]

theorem validateNotes_some {fs : Fs} :
    ∀ {ids : List Str}, (∃ id ∈ ids, ¬ IsNote fs id) →
      ∃ err, validateNotes fs ids = some err := by
  intro ids
  induction ids with
  | nil => intro h; simp at h
  | cons id rest ih =>
    intro h
    cases hf : findFile fs (id ++ str ".md") with
    | none => exact ⟨.notFound id, validateNotes_cons_missing hf⟩
    | some raw =>
      rw [validateNotes_cons_found hf]
      cases hp : parseMemoryFile id raw with
      | error e => exact ⟨e, rfl⟩
      | ok entry =>
        by_cases ht : entry.type = str "note"
        · simp only [ht, eq_self_iff_true, if_true]
          apply ih
          obtain ⟨id2, hid2, hnot⟩ := h
          rcases List.mem_cons.mp hid2 with rfl | hmem
          · exact absurd ⟨raw, entry, hf, hp, ht⟩ hnot
          · exact ⟨id2, hmem, hnot⟩
        · simp only [ht, if_false]
          exact ⟨.wrongType id, rfl⟩

/-- When every id resolves and decodes but at least one is not a note,
the validation error is specifically `WrongType`. -/
theorem validateNotes_wrongType {fs : Fs} :
    ∀ {ids : List Str},
      (∀ id ∈ ids, ∃ raw entry, findFile fs (id ++ str ".md") = some raw ∧
        parseMemoryFile id raw = .ok entry) →
      (∃ id ∈ ids, ¬ IsNote fs id) →
      ∃ id0, validateNotes fs ids = some (.wrongType id0) := by
  intro ids
  induction ids with
  | nil => intro _ h; simp at h
  | cons id rest ih =>
    intro hall h
    obtain ⟨raw, entry, hf, hp⟩ := hall id (List.mem_cons_self _ _)
    rw [validateNotes_cons_found hf, hp]
    by_cases ht : entry.type = str "note"
    · simp only [ht, eq_self_iff_true, if_true]
      apply ih (fun i hi => hall i (List.mem_cons_of_mem _ hi))
      obtain ⟨id2, hid2, hnot⟩ := h
      rcases List.mem_cons.mp hid2 with rfl | hmem
      · exact absurd ⟨raw, entry, hf, hp, ht⟩ hnot
      · exact ⟨id2, hmem, hnot⟩
    · simp only [ht, if_false]
      exact ⟨id, rfl⟩

/-- A validation failure aborts `replaceNotes` before any deletion: the
result is the error and the directory is untouched. -/
theorem replaceNotes_validation_aborts {ids : List Str} {content newId now : Str}
    {fs : Fs} (h : ∃ id ∈ ids, ¬ IsNote fs id) :
    (replaceNotes ids content newId now fs).1.isOk = false ∧
    (replaceNotes ids content newId now fs).2 = fs := by
  obtain ⟨err, herr⟩ := validateNotes_some h
  unfold replaceNotes
  rw [herr]
  exact ⟨rfl, rfl⟩

/-! ### Size computations and oversized notes -/
theorem getByteSize_replicate (n : Nat) :
    getByteSize (List.replicate n 'a') = n := by
  unfold getByteSize
  rw [List.map_replicate]
  have h : Char.utf8Size 'a' = 1 := rfl
  rw [h]
  simp [List.sum_replicate]

theorem trimChars_replicate (n : Nat) :
    trimChars (List.replicate n 'a') = List.replicate n 'a' :=
  trimChars_of_all_clean fun c hc => by
    rw [List.eq_of_mem_replicate hc]; rfl

theorem validEntry_bigNote (n : Nat) : validEntry (bigNote n) = true := by
  unfold validEntry bigNote
  simp only
  rw [trimChars_replicate]
  simp only [beq_self_eq_true, Bool.and_true]
  decide

theorem cyc_anc_none : ∀ (n : Nat) (acc : List Str),
    ancGo cycEntries n (str "a") acc = none ∧
    ancGo cycEntries n (str "b") acc = none
  | 0, _ => ⟨rfl, rfl⟩
  | n+1, acc =>
    ⟨(cyc_anc_none n (str "b" :: acc)).2, (cyc_anc_none n (str "a" :: acc)).1⟩

theorem cyc_desc_none : ∀ (n : Nat),
    descGo cycEntries n (str "a") = none ∧
    descGo cycEntries n (str "b") = none
  | 0 => ⟨rfl, rfl⟩
  | n+1 => by
    constructor
    · have h := (cyc_desc_none n).2
      have e1 : descGo cycEntries (n+1) (str "a") =
          (match descGo cycEntries n (str "b") with
           | none => none
           | some sub => some (str "b" :: (sub ++ []))) := rfl
      rw [e1, h]
    · have h := (cyc_desc_none n).1
      have e1 : descGo cycEntries (n+1) (str "b") =
          (match descGo cycEntries n (str "a") with
           | none => none
           | some sub => some (str "a" :: (sub ++ []))) := rfl
      rw [e1, h]

/-- The fuelled ancestor walk on the cycle fails at every fuel value:
the source loop runs forever. -/
theorem cyc_walk_diverges :
    (¬ ∃ n, (ancGo cycEntries n (str "a") []).isSome = true) ∧
    (¬ ∃ n, (descGo cycEntries n (str "a")).isSome = true) := by
  constructor
  · rintro ⟨n, hn⟩
    rw [(cyc_anc_none n []).1] at hn
    simp at hn
  · rintro ⟨n, hn⟩
    rw [(cyc_desc_none n).1] at hn
    simp at hn

/-! ### Identifier generation -/
theorem takeWhile_all_append {p : Char → Bool} {l1 l2 : Str}
    (h1 : ∀ c ∈ l1, p c = true) (h2 : match l2 with | [] => True | c :: _ => p c = false) :
    (l1 ++ l2).takeWhile p = l1 ∧ (l1 ++ l2).dropWhile p = l2 := by
  induction l1 with
  | nil =>
    cases l2 with
    | nil => exact ⟨rfl, rfl⟩
    | cons c cs =>
      simp only at h2
      simp [List.takeWhile_cons, List.dropWhile_cons, h2]
  | cons x xs ih =>
    have hx : p x = true := h1 x (List.mem_cons_self _ _)
    have hih := ih (fun c hc => h1 c (List.mem_cons_of_mem _ hc))
    constructor
    · simp only [List.cons_append, List.takeWhile_cons, hx, if_true]
      rw [hih.1]
    · simp only [List.cons_append, List.dropWhile_cons, hx, if_true]
      exact hih.2

theorem isB32_alphabet : ∀ j : Fin 32, isB32 (base32Alphabet.getD j.val 'a') = true := by
  decide

/-- Whenever the derived prefix is at least two characters of `[a-z0-9]`,
the generated id matches `ID_PATTERN`; the five-character random suffix
always consists of valid base32 characters. -/
theorem generateId_pattern (dirName : Str) (sample : Nat → Fin 32)
    (h1 : 2 ≤ (derivePfx dirName).length)
    (h2 : ∀ c ∈ derivePfx dirName, (isLowerAZ c || isDigit09 c) = true) :
    idPattern (generateId dirName sample) = true := by
  unfold generateId idPattern
  have hsplit := @takeWhile_all_append (fun c => isLowerAZ c || isDigit09 c)
    (derivePfx dirName) ('-' :: generateRandomId 5 sample) h2
    (by show (isLowerAZ '-' || isDigit09 '-') = false; decide)
  rw [hsplit.1, hsplit.2]
  simp only [Bool.and_eq_true, decide_eq_true_eq]
  refine ⟨h1, ?_, ?_⟩
  · simp [generateRandomId]
  · rw [List.all_eq_true]
    intro c hc
    unfold generateRandomId at hc
    rcases List.mem_map.mp hc with ⟨i, hi, rfl⟩
    exact isB32_alphabet (sample i)

/-! ### Remaining helpers for the claims -/
theorem isSome_of_ne_none {α : Type} {o : Option α} (h : o ≠ none) :
    o.isSome = true := by
  cases o with
  | none => exact absurd rfl h
  | some a => rfl

theorem parseMemoryFile_eq_of_split {raw fmt body id : Str}
    (h : splitFrontMatter raw = some (fmt, body)) :
    parseMemoryFile id raw =
      (match parseYamlFM fmt with
       | .error e => .error e
       | .ok fm => .ok (buildEntry id fm (trimChars body))) := by
  rw [parseMemoryFile, h]

theorem normalizeBlocks_sound (v : Option YamlVal) :
    match normalizeBlocks v with
    | some l => l ≠ [] ∧ l.all idPattern = true
    | none => True := by
  rcases v with _ | v
  · trivial
  rcases v with s | items | _ | k
  · show (match (if decide (0 < (trimChars s).length) && idPattern (trimChars s)
        then some [trimChars s] else none) with
      | some l => l ≠ [] ∧ l.all idPattern = true
      | none => True)
    by_cases h : (decide (0 < (trimChars s).length) && idPattern (trimChars s)) = true
    · rw [if_pos h]
      simp only [Bool.and_eq_true] at h
      exact ⟨by simp, by simp [h.2]⟩
    · rw [if_neg h]
      trivial
  · show (match (if ((((items.filterMap asVstr).map trimChars).filter
        (fun id => decide (0 < id.length) && idPattern id)).isEmpty)
        then none
        else some (((items.filterMap asVstr).map trimChars).filter
          (fun id => decide (0 < id.length) && idPattern id))) with
      | some l => l ≠ [] ∧ l.all idPattern = true
      | none => True)
    by_cases h : ((((items.filterMap asVstr).map trimChars).filter
        (fun id => decide (0 < id.length) && idPattern id)).isEmpty) = true
    · rw [if_pos h]
      trivial
    · rw [if_neg h]
      refine ⟨?_, ?_⟩
      · intro he
        rw [he] at h
        exact h rfl
      · rw [List.all_eq_true]
        intro b hb
        have := List.of_mem_filter hb
        simp only [Bool.and_eq_true] at this
        exact this.2
  · trivial
  · trivial

/-! ### The claims -/
/-- C1: the spec's classification says Scenario B yields ready = {setup},
blocked = {a, b, main}, blockersOf(main) = {a, b}.  The code builds the
`blockers` map keyed by each puzzle's `blocks` *array* and then probes it
with a *string* id, so every lookup misses: all four open puzzles come
out `ready` and `main` has no blockers, even though the map itself holds
three entries. -/
theorem c1_scenarioB_all_ready :
    (scenarioB.map (fun p => getStatus scenarioB p)) =
      [str "ready", str "ready", str "ready", str "ready"] ∧
    getBlockingPuzzles scenarioB (str "main") = [] ∧
    (buildBlockers scenarioB).length = 3 := by
  refine ⟨?_, ?_, ?_⟩ <;> decide

/-- C2 (amended): the walks of `getPuzzleTree` and `renderPuzzleTree`
terminate on every store whose blocks relation is acyclic — witnessed by
a rank function — but carry no visited-set guard, so termination on
arbitrary stores fails (see the counterexample). -/
theorem c2_walks_terminate_on_acyclic (entries : List MemoryEntry)
    (rank : Str → Nat) (N : Nat) (root : Str)
    (hedge : RankedBelow entries rank N) (hroot : rank root ≤ N) :
    (ancGo entries (N + 1) root []).isSome = true ∧
    (rancGo entries (N + 1) root []).isSome = true ∧
    (descGo entries (N + 1) root).isSome = true ∧
    (rdescGo entries (N + 1) root 1).isSome = true ∧
    (getPuzzleTree entries (N + 1) root).isSome = true := by
  refine ⟨?_, ?_, ?_, ?_, ?_⟩
  · exact isSome_of_ne_none (ancGo_terminates hedge (N + 1) root [] hroot (by omega))
  · exact isSome_of_ne_none (rancGo_terminates hedge (N + 1) root [] hroot (by omega))
  · exact isSome_of_ne_none (descGo_terminates hedge (N + 1) root (by omega))
  · exact isSome_of_ne_none (rdescGo_terminates hedge (N + 1) root 1 (by omega))
  · exact getPuzzleTree_isSome hedge hroot

/-- C2 witness: the linear chain is ranked by `chainRank` with bound 2,
so every walk from `b` succeeds at fuel 3. -/
theorem c2_witness :
    RankedBelow chainEntries chainRank 2 ∧ chainRank (str "b") ≤ 2 ∧
    ((ancGo chainEntries 3 (str "b") []).isSome = true ∧
     (rancGo chainEntries 3 (str "b") []).isSome = true ∧
     (descGo chainEntries 3 (str "b")).isSome = true ∧
     (rdescGo chainEntries 3 (str "b") 1).isSome = true ∧
     (getPuzzleTree chainEntries 3 (str "b")).isSome = true) :=
  ⟨by unfold RankedBelow; decide, by decide,
   c2_walks_terminate_on_acyclic chainEntries chainRank 2 (str "b")
     (by unfold RankedBelow; decide) (by decide)⟩

/-- C2 counterexample: on the two-puzzle cycle the ancestor loop and the
descendant recursion fail at every fuel value — the source loops forever,
refuting the claimed termination on stores with cycles. -/
theorem c2_counterexample :
    (¬ ∃ n, (ancGo cycEntries n (str "a") []).isSome = true) ∧
    (¬ ∃ n, (descGo cycEntries n (str "a")).isSome = true) :=
  cyc_walk_diverges

/-- C3 (amended): when every file decodes, the listing is the scanned
entries sorted by `created` descending; but any single undecodable file
empties the *whole* listing (the `try` wraps the loop), refuting the
skip-corrupt-files claim; empty or missing directories yield `[]`. -/
theorem c3_listing (fs : Fs) (t : Option Str) :
    (∀ l, listGo t fs = .ok l →
      listMemoryEntries (some fs) t = sortByLe newerFirst l ∧
      List.Perm (listMemoryEntries (some fs) t) l ∧
      List.Pairwise (fun a b => newerFirst a b = true)
        (listMemoryEntries (some fs) t)) ∧
    ((∃ p ∈ fs, ∃ id, dropMd p.1 = some id ∧
        (parseMemoryFile id p.2).isOk = false) →
      listMemoryEntries (some fs) t = []) ∧
    listMemoryEntries none t = [] ∧
    listMemoryEntries (some []) t = [] :=
  ⟨fun _ h => listMemoryEntries_of_ok h,
   fun h => listMemoryEntries_empty_of_bad h, rfl, rfl⟩

/-- C3 witness: the store with one corrupt file lists as empty, and a
missing directory lists as empty. -/
theorem c3_witness :
    listMemoryEntries (some c3fs) none = [] ∧
    listMemoryEntries none none = [] :=
  ⟨(c3_listing c3fs none).2.1
     ⟨(str "bad.md", str "garbage"), by decide, str "bad", by decide, by decide⟩,
   (c3_listing [] none).2.2.1⟩

/-- C3 counterexample: `goodNote` decodes perfectly and sits in `c3fs`
next to one corrupt file, yet the listing — with or without a type
filter — is empty rather than `[goodNote]`. -/
theorem c3_counterexample :
    parseMemoryFile (str "zz-ccccc") (serializeMemoryEntry goodNote) =
      .ok goodNote ∧
    goodNote.type = str "note" ∧
    (str "zz-ccccc.md", serializeMemoryEntry goodNote) ∈ c3fs ∧
    listMemoryEntries (some c3fs) none = [] ∧
    listMemoryEntries (some c3fs) (some (str "note")) = [] :=
  ⟨rfl, rfl, by decide, rfl, rfl⟩

/-- C4: round-trip — for every valid entry `e`,
`parseMemoryFile e.id (serializeMemoryEntry e)` recovers `e` in every
field. -/
theorem c4_roundtrip (e : MemoryEntry) (hv : validEntry e = true) :
    parseMemoryFile e.id (serializeMemoryEntry e) = .ok e :=
  parseMemoryFile_serialize hv

/-- C4 witness: the round trip on a concrete entry that populates every
optional field. -/
theorem c4_witness :
    validEntry demoEntry = true ∧
    parseMemoryFile demoEntry.id (serializeMemoryEntry demoEntry) =
      .ok demoEntry :=
  ⟨by decide, c4_roundtrip demoEntry (by decide)⟩

/-- C5 (amended): the size guard compares `32768` against the listed note
total plus the new content — `.error` and no write above the cap; success
with the warning flag set exactly when the total is over `30000`.  The
"existing note-type entries" of the original claim must be read as the
entries the listing returns: a corrupt file empties that listing and
zeroes the total (see the counterexample). -/
theorem c5_createNote_guard (content newId now : Str) (fs : Fs) :
    (hardLimit < getTotalNoteSize fs + getByteSize content →
      createNote content newId now fs = (.error .hardLimit, fs)) ∧
    (getTotalNoteSize fs + getByteSize content ≤ hardLimit →
      (createNote content newId now fs).1 =
        .ok ({ id := newId, type := str "note", content := content,
               created := now },
             decide (softLimit < getTotalNoteSize fs + getByteSize content)) ∧
      (createNote content newId now fs).2 =
        writeFile fs (newId ++ str ".md")
          (serializeMemoryEntry
            { id := newId, type := str "note", content := content,
              created := now })) := by
  constructor
  · intro h
    simp only [createNote]
    rw [if_pos h]
  · intro h
    have hn : ¬ hardLimit < getTotalNoteSize fs + getByteSize content := by omega
    constructor
    · simp only [createNote]
      rw [if_neg hn]
    · simp only [createNote]
      rw [if_neg hn]

/-- C5 witness: in an empty store a 32769-byte note is rejected with the
store untouched, while a 2-byte note is accepted without the warning. -/
theorem c5_witness :
    createNote bigContent (str "zz-eeeee") (str "t") [] =
      (.error .hardLimit, []) ∧
    (createNote (str "hi") (str "zz-eeeee") (str "t") []).1 =
      .ok ({ id := str "zz-eeeee", type := str "note", content := str "hi",
             created := str "t" },
           decide (softLimit < getTotalNoteSize [] + getByteSize (str "hi"))) := by
  have hbig : hardLimit < getTotalNoteSize [] + getByteSize bigContent := by
    rw [show getTotalNoteSize ([] : Fs) = 0 from rfl,
        show getByteSize bigContent = 32769 from getByteSize_replicate 32769]
    decide
  have hsmall : getTotalNoteSize [] + getByteSize (str "hi") ≤ hardLimit := by
    decide
  exact ⟨(c5_createNote_guard bigContent (str "zz-eeeee") (str "t") []).1 hbig,
         ((c5_createNote_guard (str "hi") (str "zz-eeeee") (str "t") []).2 hsmall).1⟩

set_option maxRecDepth 4000 in
/-- C5 counterexample: `c5fs` holds a decodable 33000-byte note next to
one corrupt file.  The sum of the byte lengths of all existing note
entries plus the 1-byte new content exceeds 32768, yet `createNote`
succeeds and writes the file, because the corrupt file makes the listing
— and hence the computed total — empty. -/
theorem c5_counterexample :
    (bigNote 33000).id = str "zz-aaaaa" ∧
    parseMemoryFile (bigNote 33000).id (serializeMemoryEntry (bigNote 33000)) =
      .ok (bigNote 33000) ∧
    (bigNote 33000).type = str "note" ∧
    hardLimit < getByteSize (bigNote 33000).content + getByteSize (str "x") ∧
    getTotalNoteSize c5fs = 0 ∧
    (createNote (str "x") (str "zz-ddddd") (str "t") c5fs).1.isOk = true ∧
    (createNote (str "x") (str "zz-ddddd") (str "t") c5fs).2.length =
      c5fs.length + 1 := by
  refine ⟨rfl, parseMemoryFile_serialize (validEntry_bigNote 33000), rfl, ?_,
    rfl, rfl, rfl⟩
  rw [show (bigNote 33000).content = List.replicate 33000 'a' from rfl,
      getByteSize_replicate]
  decide

/-- C6 (amended): in the chain where `a.blocks = [b]` and `b.blocks = [c]`,
the ancestor loop follows `blocks[0]` *outward* — the ancestors of `b`
are `[c]`, the entries `b` itself blocks — and the descendant recursion
collects the entries whose `blocks` contain `b`, here `[(a, 1)]`; the
full tree for `b` is `[c, b, a]`. -/
theorem c6_chain_tree :
    getPuzzleTree chainEntries 4 (str "b") = some [str "c", str "b", str "a"] ∧
    ancGo chainEntries 4 (str "b") [] = some [str "c"] ∧
    rdescGo chainEntries 4 (str "b") 1 = some [(str "a", 1)] := by
  refine ⟨?_, ?_, ?_⟩ <;> decide

/-- C6 counterexample: the claim's expected results — ancestors of `b`
equal to `[a]` and descendant subtree equal to `[(c, 1)]` — are exactly
the opposite of what the code computes on the chain. -/
theorem c6_counterexample :
    ancGo chainEntries 4 (str "b") [] ≠ some [str "a"] ∧
    rdescGo chainEntries 4 (str "b") 1 ≠ some [(str "c", 1)] := by
  refine ⟨?_, ?_⟩ <;> decide

/-- C7 (amended): a failing id aborts `replaceNotes` before any deletion
(with `WrongType` when every id resolves and decodes but one is not a
note); the no-data-loss half of the claim fails, because the new note is
created only *after* all old ones are deleted (see the counterexample). -/
theorem c7_replaceNotes_validation (ids : List Str) (content newId now : Str)
    (fs : Fs) :
    ((∃ id ∈ ids, ¬ IsNote fs id) →
      (replaceNotes ids content newId now fs).1.isOk = false ∧
      (replaceNotes ids content newId now fs).2 = fs) ∧
    ((∀ id ∈ ids, ∃ raw entry, findFile fs (id ++ str ".md") = some raw ∧
        parseMemoryFile id raw = .ok entry) →
      (∃ id ∈ ids, ¬ IsNote fs id) →
      ∃ id0, validateNotes fs ids = some (.wrongType id0) ∧
        replaceNotes ids content newId now fs = (.error (.wrongType id0), fs)) := by
  constructor
  · intro h
    exact replaceNotes_validation_aborts h
  · intro hall hex
    obtain ⟨id0, hv⟩ := validateNotes_wrongType hall hex
    refine ⟨id0, hv, ?_⟩
    unfold replaceNotes
    rw [hv]

/-- C7 witness: a store holding one puzzle file; `replaceNotes` on its id
fails with `WrongType` and leaves the store untouched. -/
theorem c7_witness :
    ∃ id0, validateNotes c7pfs [str "zz-ppppp"] = some (.wrongType id0) ∧
      replaceNotes [str "zz-ppppp"] (str "new") (str "zz-qqqqq") (str "t") c7pfs =
        (.error (.wrongType id0), c7pfs) := by
  have hok : parseMemoryFile (str "zz-ppppp") (serializeMemoryEntry c7puzzle) =
      .ok c7puzzle := parseMemoryFile_serialize (show validEntry c7puzzle = true by decide)
  have hall : ∀ id ∈ [str "zz-ppppp"],
      ∃ raw entry, findFile c7pfs (id ++ str ".md") = some raw ∧
        parseMemoryFile id raw = .ok entry := by
    intro id hid
    rcases List.mem_cons.mp hid with rfl | hmem
    · exact ⟨serializeMemoryEntry c7puzzle, c7puzzle, rfl, hok⟩
    · exact absurd hmem (List.not_mem_nil id)
  have hnot : ¬ IsNote c7pfs (str "zz-ppppp") := by
    rintro ⟨raw, entry, hf, hp, ht⟩
    rw [show findFile c7pfs (str "zz-ppppp" ++ str ".md") =
        some (serializeMemoryEntry c7puzzle) from rfl] at hf
    injection hf with h1
    subst h1
    rw [hok] at hp
    injection hp with h2
    subst h2
    exact absurd ht (by decide)
  exact (c7_replaceNotes_validation [str "zz-ppppp"] (str "new") (str "zz-qqqqq")
    (str "t") c7pfs).2 hall ⟨str "zz-ppppp", List.mem_cons_self _ _, hnot⟩

/-- A step equation for `replaceNotes` when validation and deletion both
succeed and the final creation fails. -/
theorem replaceNotes_err {ids : List Str} {content newId now : Str}
    {fs fs2 fs3 : Fs} {e : Err} (hval : validateNotes fs ids = none)
    (hunl : unlinkAll ids fs = (none, fs2))
    (hcn : createNote content newId now fs2 = (.error e, fs3)) :
    replaceNotes ids content newId now fs = (.error e, fs3) := by
  unfold replaceNotes
  simp only [hval, hunl, hcn]

/-- C7 counterexample: replacing the one existing note with over-limit
content deletes the old file first and then fails the size guard of
`createNote`: the operation errors *and* the store is empty — the old
content `keep me` is gone and the new content was never written. -/
theorem c7_counterexample :
    keepNote.content = str "keep me" ∧
    findFile c7fs (str "zz-bbbbb" ++ str ".md") =
      some (serializeMemoryEntry keepNote) ∧
    replaceNotes [str "zz-bbbbb"] bigContent (str "zz-qqqqq") (str "t") c7fs =
      (.error .hardLimit, []) := by
  refine ⟨rfl, rfl, ?_⟩
  have hok : parseMemoryFile (str "zz-bbbbb") (serializeMemoryEntry keepNote) =
      .ok keepNote := parseMemoryFile_serialize (show validEntry keepNote = true by decide)
  have hval : validateNotes c7fs [str "zz-bbbbb"] = none := by
    rw [validateNotes_cons_found (show findFile c7fs (str "zz-bbbbb" ++ str ".md") =
      some (serializeMemoryEntry keepNote) from rfl), hok]
    rfl
  have hunl : unlinkAll [str "zz-bbbbb"] c7fs = (none, []) := rfl
  have hcn : createNote bigContent (str "zz-qqqqq") (str "t") [] =
      (.error .hardLimit, []) := by
    have h1 : hardLimit < getTotalNoteSize [] + getByteSize bigContent := by
      rw [show getTotalNoteSize ([] : Fs) = 0 from rfl,
          show getByteSize bigContent = 32769 from getByteSize_replicate 32769]
      decide
    simp only [createNote]
    rw [if_pos h1]
  exact replaceNotes_err hval hunl hcn

/-- C8: once the delimiter structure is present and the raw YAML subset
parses, decoding cannot fail because of the `blocks` header: the entry
decodes with `blocks` equal to `normalizeBlocks` of the header value,
which is either absent or a non-empty list of ids matching `ID_PATTERN`.
(Self-references are *not* dropped — see the counterexample.) -/
theorem c8_blocks_lenient (id raw fmt body : Str) (fm : FrontMatter)
    (h1 : splitFrontMatter raw = some (fmt, body))
    (h2 : parseYamlFM fmt = .ok fm) :
    parseMemoryFile id raw = .ok (buildEntry id fm (trimChars body)) ∧
    (buildEntry id fm (trimChars body)).blocks = normalizeBlocks fm.blocks ∧
    (match normalizeBlocks fm.blocks with
     | some l => l ≠ [] ∧ l.all idPattern = true
     | none => True) := by
  refine ⟨?_, rfl, normalizeBlocks_sound fm.blocks⟩
  rw [parseMemoryFile_eq_of_split h1, h2]

/-- C8 witness: a file whose `blocks` header holds the non-id scalar `42`
still decodes, with `blocks` dropped to `none`. -/
theorem c8_witness :
    splitFrontMatter c8raw = some (c8fmt, c8body) ∧
    parseYamlFM c8fmt = .ok c8fm ∧
    parseMemoryFile (str "ab-aaaaa") c8raw =
      .ok (buildEntry (str "ab-aaaaa") c8fm (trimChars c8body)) ∧
    normalizeBlocks c8fm.blocks = none ∧
    (buildEntry (str "ab-aaaaa") c8fm (trimChars c8body)).blocks = none := by
  have hs : splitFrontMatter c8raw = some (c8fmt, c8body) := rfl
  have hy : parseYamlFM c8fmt = .ok c8fm := rfl
  exact ⟨hs, hy,
    (c8_blocks_lenient (str "ab-aaaaa") c8raw c8fmt c8body c8fm hs hy).1, rfl, rfl⟩

/-- C8 counterexample: an entry whose `blocks` header names the entry's
own id decodes with the self-reference *kept* — `normalizeBlocks` has no
self-reference check — refuting the claim that self-referential entries
are dropped during parsing. -/
theorem c8_counterexample :
    parseMemoryFile (str "ab-aaaaa") c8selfRaw =
      .ok { id := str "ab-aaaaa", type := str "puzzle", content := str "body",
            created := str "x", blocks := some [str "ab-aaaaa"] } := rfl

/-- C9: on every store in which each entry's `blocks` list holds at most
one id, the current `getPuzzleTree` agrees with the earlier version that
modelled `blocks` as a single optional id, run on the pointwise-converted
store. -/
theorem c9_refinement (entries : List MemoryEntry) (fuel : Nat) (root : Str)
    (hlen : ∀ e ∈ entries, (getBlocksList e).length ≤ 1) :
    getPuzzleTreeOld (entries.map toOldEntry) fuel root =
      getPuzzleTree entries fuel root :=
  getPuzzleTreeOld_map entries hlen fuel root

/-- C9 witness: the two versions agree on the three-entry chain. -/
theorem c9_witness :
    (∀ e ∈ chainEntries, (getBlocksList e).length ≤ 1) ∧
    getPuzzleTreeOld (chainEntries.map toOldEntry) 5 (str "b") =
      getPuzzleTree chainEntries 5 (str "b") :=
  ⟨by decide, c9_refinement chainEntries 5 (str "b") (by decide)⟩

/-- C10 (amended): the generated id `${prefix}-${suffix}` matches
`ID_PATTERN` whenever the derived prefix has at least two characters,
all in `[a-z0-9]`; the claim's "for every working-directory name" fails,
because a one-character directory name yields a one-character prefix
(see the counterexample). -/
theorem c10_generateId (dirName : Str) (sample : Nat → Fin 32)
    (h1 : 2 ≤ (derivePfx dirName).length)
    (h2 : ∀ c ∈ derivePfx dirName, (isLowerAZ c || isDigit09 c) = true) :
    idPattern (generateId dirName sample) = true :=
  generateId_pattern dirName sample h1 h2

/-- C10 witness: the directory name `ezer` derives the prefix `ez` and
every generated id matches the pattern; checked at the constant
all-zero oracle. -/
theorem c10_witness :
    2 ≤ (derivePfx (str "ezer")).length ∧
    (∀ c ∈ derivePfx (str "ezer"), (isLowerAZ c || isDigit09 c) = true) ∧
    idPattern (generateId (str "ezer") (fun _ => 0)) = true :=
  ⟨by decide, by decide,
   c10_generateId (str "ezer") (fun _ => 0) (by decide) (by decide)⟩

/-- C10 counterexample: a single-character directory name derives a
single-character prefix, and the resulting id fails `ID_PATTERN`, which
requires at least two leading characters. -/
theorem c10_counterexample :
    derivePfx (str "a") = str "a" ∧
    idPattern (generateId (str "a") (fun _ => 0)) = false := by
  refine ⟨?_, ?_⟩ <;> decide

end Ezer
